import Mathlib

/-!
Verification model of the jvol volumetric-image codec container.

The repository's `src/jvol/io.py` (the only file under src/) assembles and
parses the `.jvol` container: it derives a quantization table, captures
rescale parameters, runs the encode pipeline, Huffman-compresses the AC
run-length stream, and saves/loads the resulting field dictionary with
`np.savez`/`np.load`.  The codec modules `io.py` imports (`encoding.py`,
`decoding.py`, `huffman.py`, `casting.py`) are not under src/; they are
modelled from the specification, as marked on each such definition.

Machine integers are modelled as `Nat`/`Int` with explicit `% 2 ^ w` where
numpy casts matter (the uint16 shape field).  Fallible operations return
`Except String`.
-/

namespace Jvol

/-! ## Generic helpers -/

/-- Ceiling division, used for the per-axis block count. -/
def ceilDiv (a b : ℕ) : ℕ := (a + b - 1) / b

/-- Raster-order list of 3-D indices of a `d1 × d2 × d3` grid. -/
def rasterIdx (d1 d2 d3 : ℕ) : List (ℕ × ℕ × ℕ) :=
  (List.range (d1 * d2 * d3)).map fun n => (n / (d2 * d3), n / d3 % d2, n % d3)

/-- Round-to-nearest integer division with ties away from zero (spec §4.2),
used when quantizing coefficients. -/
def roundDiv (x : ℤ) (d : ℕ) : ℤ :=
  if d = 0 then 0
  else if 0 ≤ x then (2 * x + d) / (2 * d)
  else -((2 * (-x) + d) / (2 * d))

/-- Largest element of a list of naturals (`0` for the empty list). -/
def maxNat (l : List ℕ) : ℕ := l.foldr max 0

/-! ## Run-length codec

Modelled from the spec (`encoding.py`/`decoding.py` are not under src/):
§4.3 — encode collapses maximal runs of identical consecutive values into
(value, count) pairs; decode expands them back. -/

/-- Run-length encode: maximal runs of identical consecutive values become
`(value, count)` pairs, `count ≥ 1`. -/
def rleEncode : List ℤ → List (ℤ × ℕ)
  | [] => []
  | x :: xs =>
    match rleEncode xs with
    | [] => [(x, 1)]
    | (y, n) :: rest => if x = y then (y, n + 1) :: rest else (x, 1) :: (y, n) :: rest

/-- Run-length decode: expand each `(value, count)` pair. -/
def rleExpand (pairs : List (ℤ × ℕ)) : List ℤ :=
  (pairs.map fun p => List.replicate p.2 p.1).flatten

/-! ## Bit strings and byte packing -/

/-- MSB-first bit list of width `w` for the value `c`. -/
def natBits (c : ℕ) : ℕ → List Bool
  | 0 => []
  | w + 1 => c.testBit w :: natBits c w

/-- Value of an MSB-first bit list. -/
def bitsVal (bs : List Bool) : ℕ :=
  bs.foldl (fun n b => 2 * n + (if b then 1 else 0)) 0

/-- One packed byte: up to 8 bits, zero-padded on the right. -/
def byteOf (bs : List Bool) : ℕ :=
  bitsVal (bs ++ List.replicate (8 - bs.length) false)

/-- Pack a bit list MSB-first into bytes, padding the last byte with zero
bits (spec §3, Bitstream). -/
def packBits : List Bool → List ℕ
  | [] => []
  | b :: bs => byteOf (List.take 8 (b :: bs)) :: packBits (List.drop 7 bs)
  termination_by l => l.length
  decreasing_by simp [List.length_drop]; omega

/-- Unpack bytes back into the MSB-first bit list they encode. -/
def unpackBits (bytes : List ℕ) : List Bool :=
  bytes.flatMap fun n => natBits n 8

/-! ## Canonical Huffman codec

Modelled from the spec (`huffman.py` is not under src/): §4.4 — greedy
two-least-frequent merge over the histogram of the AC run-count stream plus
a reserved end-of-stream symbol, canonicalized into `(bitsizes, symbols)`
arrays, with the payload packed MSB-first and terminated by the sentinel's
code. -/

/-- Binary Huffman tree over run-count symbols. -/
inductive HTree where
  | leaf (sym : ℕ)
  | node (l r : HTree)
deriving DecidableEq

/-- Symbols at the leaves, left to right. -/
def HTree.syms : HTree → List ℕ
  | .leaf s => [s]
  | .node l r => l.syms ++ r.syms

/-- Leaves together with their depths, the root taken at depth `d`. -/
def HTree.leavesD : HTree → ℕ → List (ℕ × ℕ)
  | .leaf s, d => [(s, d)]
  | .node l r, d => l.leavesD (d + 1) ++ r.leavesD (d + 1)

/-- Insert a weighted tree into a worklist kept sorted by weight (stable, so
construction is deterministic, spec §4.4). -/
def insertWL (x : ℕ × HTree) : List (ℕ × HTree) → List (ℕ × HTree)
  | [] => [x]
  | y :: ys => if x.1 < y.1 then x :: y :: ys else y :: insertWL x ys

/-- Sort a worklist by weight. -/
def sortWL (l : List (ℕ × HTree)) : List (ℕ × HTree) := l.foldr insertWL []

/-- Greedy Huffman construction: repeatedly merge the two least-weighted
trees until one remains (fuelled; `fuel = length` suffices). -/
def combine : ℕ → List (ℕ × HTree) → Option HTree
  | _, [] => none
  | _, [(_, t)] => some t
  | 0, _ :: _ :: _ => none
  | fuel + 1, (w1, t1) :: (w2, t2) :: rest =>
    combine fuel (insertWL (w1 + w2, .node t1 t2) rest)

/-- Canonical symbol order: by code length, then by symbol value (spec §4.4). -/
def canonLE (a b : ℕ × ℕ) : Prop := a.2 < b.2 ∨ (a.2 = b.2 ∧ a.1 ≤ b.1)

instance : DecidableRel canonLE := fun a b => by
  unfold canonLE; infer_instance

instance : IsTotal (ℕ × ℕ) canonLE := ⟨fun a b => by unfold canonLE; omega⟩

instance : IsTrans (ℕ × ℕ) canonLE := ⟨fun a b c => by unfold canonLE; omega⟩

/-- Canonical code assignment over `(symbol, bitsize)` pairs sorted by
`canonLE`: the first code is all zeros, each next code increments and shifts
left by the bitsize difference (spec §4.4). -/
def assignAux : ℕ → ℕ → List (ℕ × ℕ) → List (ℕ × ℕ × ℕ)
  | _, _, [] => []
  | code, plen, (s, l) :: rest =>
    (s, l, code * 2 ^ (l - plen)) :: assignAux (code * 2 ^ (l - plen) + 1) l rest

/-- Symbol ↦ codeword table recovered from canonical `(symbol, bitsize)` pairs. -/
def codesOf (pairs : List (ℕ × ℕ)) : List (ℕ × List Bool) :=
  (assignAux 0 0 pairs).map fun e => (e.1, natBits e.2.2 e.2.1)

/-- Serialize a symbol sequence against a code table. -/
def encodeSyms (cs : List (ℕ × List Bool)) (syms : List ℕ) : List Bool :=
  (syms.map fun s => (cs.lookup s).getD []).flatten

/-- Read one symbol: the first table entry whose codeword heads the stream. -/
def decodeOne : List (ℕ × List Bool) → List Bool → Option (ℕ × List Bool)
  | [], _ => none
  | (s, c) :: rest, bits =>
    if c <+: bits then some (s, bits.drop c.length) else decodeOne rest bits

/-- Fuelled decode loop: read symbols until the sentinel appears; a stream
that exhausts without reaching the sentinel is a corrupt-stream error. -/
def decodeLoop (cs : List (ℕ × List Bool)) (eof : ℕ) : ℕ → List Bool → Option (List ℕ)
  | 0, _ => none
  | fuel + 1, bits =>
    match decodeOne cs bits with
    | none => none
    | some (s, rest) =>
      if s = eof then some []
      else
        match decodeLoop cs eof fuel rest with
        | none => none
        | some ss => some (s :: ss)

/-- Kraft sum of a list of `(symbol, code length)` pairs. -/
def kraftSum (xs : List (ℕ × ℕ)) : ℚ :=
  (xs.map fun p => ((2 : ℚ) ^ p.2)⁻¹).sum

/-- The serialized Huffman state stored in the container, mirroring the
fields `io.py` reads and writes (`huffman.py` itself is not under src/):
`data` is the packed entropy-coded run-count payload, `values` the AC RLE
values stored verbatim, `symbols_values`/`bitsizes` the canonical table,
`symbols_counts` the per-bitsize symbol counts, `eof_symbol` the sentinel. -/
structure HuffmanCoding where
  data : List ℕ
  symbols_values : List ℕ
  symbols_counts : List ℕ
  bitsizes : List ℕ
  values : List ℤ
  eof_symbol : ℕ
deriving DecidableEq

/-- The canonical `(symbol, bitsize)` list for the run-count sequence:
alphabet = observed symbols plus the sentinel (one past the largest observed
value), each with its frequency (the sentinel gets the synthetic minimum 1),
merged greedily and canonically sorted.  `max 1` keeps every codeword
non-empty, which matters only for the degenerate single-symbol histogram. -/
def huffmanPairs (acCounts : List ℕ) : Option (List (ℕ × ℕ)) :=
  let eof := maxNat acCounts + 1
  let alphabet := acCounts.dedup ++ [eof]
  let wl := sortWL (alphabet.map fun s =>
    (if s = eof then 1 else acCounts.count s, HTree.leaf s))
  match combine wl.length wl with
  | none => none
  | some t =>
    some (List.insertionSort canonLE ((t.leavesD 0).map fun p => (p.1, max 1 p.2)))

/-- Modelled from the spec: `HuffmanCoding.from_rle` builds the canonical
code for the AC run-count sequence and packs the entropy-coded payload,
terminated by the sentinel's code (spec §4.4). -/
def HuffmanCoding.from_rle (ac_rle_values : List ℤ) (ac_rle_counts : List ℕ) :
    Except String HuffmanCoding :=
  match huffmanPairs ac_rle_counts with
  | none => .error "huffman construction failed"
  | some pairs =>
    let cs := codesOf pairs
    let eof := maxNat ac_rle_counts + 1
    .ok
      { data := packBits (encodeSyms cs ac_rle_counts ++ (cs.lookup eof).getD [])
        symbols_values := pairs.map Prod.fst
        symbols_counts :=
          (pairs.map Prod.snd).dedup.map fun l => (pairs.map Prod.snd).count l
        bitsizes := pairs.map Prod.snd
        values := ac_rle_values
        eof_symbol := eof }

/-- Modelled from the spec: rebuild the canonical code table from the stored
`(symbols_values, bitsizes)` arrays and walk the packed bit stream until the
sentinel (spec §4.4, Decoding). -/
def HuffmanCoding.decodeCounts (h : HuffmanCoding) : Except String (List ℕ) :=
  let cs := codesOf (List.zip h.symbols_values h.bitsizes)
  let bits := unpackBits h.data
  match decodeLoop cs h.eof_symbol (bits.length + 1) bits with
  | none => .error "corrupt huffman stream"
  | some syms => .ok syms

/-! ## Volumes, dtypes and the quantization table -/

/-- numpy dtype tags relevant to the container. -/
inductive Dtype where
  | uint8 | uint16 | uint32 | uint64
  | int8 | int16 | int32 | int64
  | float32 | float64
deriving DecidableEq

/-- A 3-D volume: shape, raster-order sample list, element-type tag. -/
structure Vol where
  s1 : ℕ
  s2 : ℕ
  s3 : ℕ
  data : List ℤ
  dtype : Dtype
deriving DecidableEq

/-- Quantization table: block shape and one divisor per in-block raster
position. -/
structure QTable where
  b1 : ℕ
  b2 : ℕ
  b3 : ℕ
  divisors : List ℕ
deriving DecidableEq

/-- Modelled from the spec (`encoding.py` is not under src/): §4.1 — the
quantization-table generator fails fast for `quality` outside `[1, 100]` or a
non-positive block dimension; otherwise it scales a base table (growing with
distance from the DC corner) by a factor derived from `100 - quality`,
clamped to a minimum divisor of 1. -/
def get_quantization_table (block_shape : ℤ × ℤ × ℤ) (quality : ℤ) :
    Except String QTable :=
  if quality < 1 ∨ 100 < quality then .error "quality must be in [1, 100]"
  else if block_shape.1 ≤ 0 ∨ block_shape.2.1 ≤ 0 ∨ block_shape.2.2 ≤ 0 then
    .error "block shape must be positive"
  else
    let b1 := block_shape.1.toNat
    let b2 := block_shape.2.1.toNat
    let b3 := block_shape.2.2.toNat
    .ok
      { b1 := b1, b2 := b2, b3 := b3
        divisors := (rasterIdx b1 b2 b3).map fun p =>
          max 1 ((1 + p.1 + p.2.1 + p.2.2) * (100 - quality.toNat) / 50) }

/-! ## Block transform coder

Modelled from the spec (`encoding.py`/`decoding.py` are not under src/):
§4.2 — partition into blocks with edge-replication padding, one quantized DC
(block mean) per block, AC residuals in a fixed raster scan order minus the
DC slot, and the inverse with a final crop to the stored target shape. -/

/-- Raster-order sample accessor. -/
def Vol.sample (v : Vol) (i j k : ℕ) : ℤ :=
  v.data.getD ((i * v.s2 + j) * v.s3 + k) 0

/-- Edge-replicating padded sample (spec §4.2: replicate the last valid
sample past the trailing edge). -/
def Vol.padSample (v : Vol) (i j k : ℕ) : ℤ :=
  v.sample (min i (v.s1 - 1)) (min j (v.s2 - 1)) (min k (v.s3 - 1))

/-- The samples of one block, in-block raster order. -/
def blockElems (v : Vol) (q : QTable) (b : ℕ × ℕ × ℕ) : List ℤ :=
  (rasterIdx q.b1 q.b2 q.b3).map fun o =>
    v.padSample (b.1 * q.b1 + o.1) (b.2.1 * q.b2 + o.2.1) (b.2.2 * q.b3 + o.2.2)

/-- Block mean (the unquantized DC value). -/
def blockMean (elems : List ℤ) : ℤ := roundDiv elems.sum elems.length

/-- Raster-order list of block indices covering a `t1 × t2 × t3` volume. -/
def blockList (q : QTable) (t1 t2 t3 : ℕ) : List (ℕ × ℕ × ℕ) :=
  rasterIdx (ceilDiv t1 q.b1) (ceilDiv t2 q.b2) (ceilDiv t3 q.b3)

/-- Quantized DC value of one block. -/
def dcOf (q : QTable) (elems : List ℤ) : ℤ :=
  roundDiv (blockMean elems) (q.divisors.headD 1)

/-- Quantized AC residuals of one block: elements minus the block mean, each
divided by its table divisor, in raster scan order with the DC slot dropped. -/
def acOf (q : QTable) (elems : List ℤ) : List ℤ :=
  ((List.zip elems q.divisors).drop 1).map fun p =>
    roundDiv (p.1 - blockMean elems) p.2

/-- Affine normalization at encode time (spec §3, Rescale parameters): shift
by the volume minimum and scale into an 8-bit working range. -/
def Vol.normalize (v : Vol) : Vol :=
  let mn := v.data.foldl min (v.data.headD 0)
  let mx := v.data.foldl max (v.data.headD 0)
  { v with data := v.data.map fun x => (x - mn) * 255 / max 1 (mx - mn) }

/-- DC stream: one quantized DC per block, block-raster order. -/
def dcStreamOf (v : Vol) (q : QTable) : List ℤ :=
  (blockList q v.s1 v.s2 v.s3).map fun b => dcOf q (blockElems v q b)

/-- AC stream: per-block residual sequences concatenated in block-raster
order. -/
def acStreamOf (v : Vol) (q : QTable) : List ℤ :=
  ((blockList q v.s1 v.s2 v.s3).map fun b => acOf q (blockElems v q b)).flatten

/-- Modelled from the spec (`encoding.py` is not under src/): §4.5 — the
encode facade normalizes, runs the block transform, and run-length encodes
the DC and AC streams, returning
`(dc_rle_values, dc_rle_counts, ac_rle_values, ac_rle_counts)`. -/
def encode_array (array : Vol) (quantization_table : QTable) :
    List ℤ × List ℕ × List ℤ × List ℕ :=
  let nv := array.normalize
  let dcr := rleEncode (dcStreamOf nv quantization_table)
  let acr := rleEncode (acStreamOf nv quantization_table)
  (dcr.map Prod.fst, dcr.map Prod.snd, acr.map Prod.fst, acr.map Prod.snd)

/-- Reconstructed sample at one raster position: dequantized DC of the
enclosing block plus the dequantized residual of the in-block slot, rescaled
by the stored affine parameters. -/
def reconAt (q : QTable) (t2 t3 : ℕ) (dcStream acStream : List ℤ)
    (intercept slope : ℤ) (p : ℕ × ℕ × ℕ) : ℤ :=
  let nb2 := ceilDiv t2 q.b2
  let nb3 := ceilDiv t3 q.b3
  let bIdx := (p.1 / q.b1 * nb2 + p.2.1 / q.b2) * nb3 + p.2.2 / q.b3
  let slot := (p.1 % q.b1 * q.b2 + p.2.1 % q.b2) * q.b3 + p.2.2 % q.b3
  let bv := q.b1 * q.b2 * q.b3
  let dc := dcStream.getD bIdx 0 * ((q.divisors.headD 1 : ℕ) : ℤ)
  let res :=
    if slot = 0 then 0
    else acStream.getD (bIdx * (bv - 1) + (slot - 1)) 0 * ((q.divisors.getD slot 1 : ℕ) : ℤ)
  (dc + res) * slope / 255 + intercept

/-- Modelled from the spec (`decoding.py` is not under src/): §4.5/§4.2 — the
decode facade expands the DC RLE pairs, Huffman-decodes and expands the AC
stream, checks the stream lengths against the block count derived from the
stored target shape (format errors fail before returning data), reassembles
the padded volume and crops it to the target shape, rescaling into the
stored dtype. -/
def decode_array (dc_rle_values : List ℤ) (dc_rle_counts : List ℕ)
    (quantization_block : QTable) (target_shape : ℕ × ℕ × ℕ)
    (intercept slope : ℤ) (dtype : Dtype) (huffman_coding : HuffmanCoding) :
    Except String Vol :=
  let q := quantization_block
  if q.b1 = 0 ∨ q.b2 = 0 ∨ q.b3 = 0 then .error "invalid block shape"
  else
    match huffman_coding.decodeCounts with
    | .error e => .error e
    | .ok acCounts =>
      let acStream := rleExpand (List.zip huffman_coding.values acCounts)
      let dcStream := rleExpand (List.zip dc_rle_values dc_rle_counts)
      let t1 := target_shape.1
      let t2 := target_shape.2.1
      let t3 := target_shape.2.2
      let blocks := blockList q t1 t2 t3
      let bv := q.b1 * q.b2 * q.b3
      if dcStream.length ≠ blocks.length then .error "dc stream length mismatch"
      else if acStream.length ≠ blocks.length * (bv - 1) then
        .error "ac stream length mismatch"
      else
        .ok { s1 := t1, s2 := t2, s3 := t3,
              data := (rasterIdx t1 t2 t3).map
                (reconAt q t2 t3 dcStream acStream intercept slope),
              dtype := dtype }

/-! ## Container fields and `io.py` proper -/

/-- Modelled from the spec (`casting.py` is not under src/): the narrowest
integer dtype that losslessly represents the list's range (§4.3 storage
note, §9). -/
def min_scalar_type_int (xs : List ℤ) : Dtype :=
  let mn := xs.foldl min (xs.headD 0)
  let mx := xs.foldl max (xs.headD 0)
  if 0 ≤ mn then
    if mx < 256 then .uint8
    else if mx < 65536 then .uint16
    else if mx < 4294967296 then .uint32
    else .uint64
  else
    if -128 ≤ mn ∧ mx < 128 then .int8
    else if -32768 ≤ mn ∧ mx < 32768 then .int16
    else if -2147483648 ≤ mn ∧ mx < 2147483648 then .int32
    else .int64

/-- Modelled from the spec (`casting.py` is not under src/): cast an array to
its minimal scalar type — the values are unchanged, the dtype narrows. -/
def to_min_scalar_type (xs : List ℤ) : Dtype × List ℤ :=
  (min_scalar_type_int xs, xs)

/-- Narrowest unsigned dtype for a list of naturals. -/
def min_scalar_type_nat (xs : List ℕ) : Dtype :=
  let mx := xs.foldl max (xs.headD 0)
  if mx < 256 then .uint8
  else if mx < 65536 then .uint16
  else if mx < 4294967296 then .uint32
  else .uint64

/-- A value stored in the `.jvol` container (one `np.savez` entry). -/
inductive Value where
  | mat (rows : List (List ℚ))
  | qt (t : QTable)
  | iarr (t : Dtype) (xs : List ℤ)
  | narr (t : Dtype) (xs : List ℕ)
  | iscalar (x : ℤ)
  | nscalar (n : ℕ)
  | dtypeVal (d : Dtype)
deriving DecidableEq

/-- io.py `FormatKeys` (lines 17–32): the container field names. -/
def FormatKeys.IJK_TO_RAS : String := "ijk_to_ras"

def FormatKeys.QUANTIZATION_BLOCK : String := "quantization_block"

def FormatKeys.DC_RLE_VALUES : String := "dc_rle_values"

def FormatKeys.DC_RLE_COUNTS : String := "dc_rle_counts"

def FormatKeys.AC_RLE_VALUES : String := "ac_rle_values"

def FormatKeys.AC_RLE_COUNTS : String := "ac_rle_counts"

def FormatKeys.AC_HUFFMAN_EOF_SYMBOL : String := "ac_huffman_eof_symbol"

def FormatKeys.AC_HUFFMAN_SYMBOLS : String := "ac_huffman_symbols"

def FormatKeys.AC_HUFFMAN_BITS : String := "ac_huffman_bits"

def FormatKeys.AC_HUFFMAN_VALUES : String := "ac_huffman_values"

def FormatKeys.AC_HUFFMAN_ENCODING : String := "ac_huffman_encoding"

def FormatKeys.DTYPE : String := "dtype"

def FormatKeys.INTERCEPT : String := "intercept"

def FormatKeys.SLOPE : String := "slope"

def FormatKeys.SHAPE : String := "shape"

/-- `array.min()`: numpy raises on an empty array. -/
def Vol.minE (v : Vol) : Except String ℤ :=
  match v.data with
  | [] => .error "zero-size array to reduction operation minimum"
  | x :: xs => .ok (xs.foldl min x)

/-- `array.max()`: numpy raises on an empty array. -/
def Vol.maxE (v : Vol) : Except String ℤ :=
  match v.data with
  | [] => .error "zero-size array to reduction operation maximum"
  | x :: xs => .ok (xs.foldl max x)

/-- The association list `save_jvol` hands to `np.savez` (io.py lines
87–102), in source order.  The shape is cast to `np.uint16`, i.e. reduced
modulo `2 ^ 16` per axis; the DC RLE values (and only they) are narrowed via
`to_min_scalar_type`; the Huffman fields are stored under the literal
`huffman_*` keys of io.py, not the `FormatKeys.AC_HUFFMAN_*` names. -/
def saveFields (ijk_to_ras : List (List ℚ)) (quantization_table : QTable)
    (dc_rle_values : List ℤ) (dc_rle_counts : List ℕ) (dtype : Dtype)
    (intercept slope : ℤ) (shape : ℕ × ℕ × ℕ) (huffman : HuffmanCoding) :
    List (String × Value) :=
  [(FormatKeys.IJK_TO_RAS, .mat (ijk_to_ras.take 3)),
   (FormatKeys.QUANTIZATION_BLOCK, .qt quantization_table),
   (FormatKeys.DC_RLE_VALUES,
     .iarr (to_min_scalar_type dc_rle_values).1 (to_min_scalar_type dc_rle_values).2),
   (FormatKeys.DC_RLE_COUNTS, .narr .int64 dc_rle_counts),
   (FormatKeys.DTYPE, .dtypeVal dtype),
   (FormatKeys.INTERCEPT, .iscalar intercept),
   (FormatKeys.SLOPE, .iscalar slope),
   (FormatKeys.SHAPE,
     .narr .uint16 [shape.1 % 65536, shape.2.1 % 65536, shape.2.2 % 65536]),
   ("huffman_eof_symbol", .nscalar huffman.eof_symbol),
   ("huffman_symbols_values", .narr .int64 huffman.symbols_values),
   ("huffman_symbols_counts", .narr .int64 huffman.symbols_counts),
   ("huffman_bitsizes", .narr .int64 huffman.bitsizes),
   ("huffman_values", .iarr .int64 huffman.values),
   ("huffman_data", .narr .uint8 huffman.data)]

/-- io.py `save_jvol` (lines 68–106), up to the final file write: derive the
quantization table from the cubic block shape, capture dtype and the rescale
parameters, run the encode pipeline, build the Huffman coding, and assemble
the field dictionary handed to `np.savez`. -/
def save_jvol_dict (array : Vol) (ijk_to_ras : List (List ℚ))
    (block_size : ℤ := 4) (quality : ℤ := 60) :
    Except String (List (String × Value)) := do
  let block_shape := (block_size, block_size, block_size)
  let quantization_table ← get_quantization_table block_shape quality
  let dtype := array.dtype
  let intercept ← array.minE
  let mx ← array.maxE
  let slope := mx - intercept
  let r := encode_array array quantization_table
  let huffman ← HuffmanCoding.from_rle r.2.2.1 r.2.2.2
  pure (saveFields ijk_to_ras quantization_table r.1 r.2.1 dtype intercept slope
    (array.s1, array.s2, array.s3) huffman)

/-- A file in the modelled file system: a jvol container, or content handled
by the external ITK adapter (an opaque collaborator, spec §6). -/
inductive FileData (α : Type) where
  | jvol (fields : List (String × Value))
  | itk (content : α)
deriving DecidableEq

/-- A filesystem path: stem plus suffix (Python `path.suffix`). -/
structure JPath where
  stem : String
  suffix : String
deriving DecidableEq

/-- The modelled file system. -/
def FS (α : Type) : Type := List (JPath × FileData α)

/-- Writing a file. -/
def fsWrite {α : Type} (fs : FS α) (p : JPath) (f : FileData α) : FS α :=
  (p, f) :: fs

/-- io.py `save_jvol` at the filesystem level: the output file is opened and
written only after every encoding stage has completed (lines 104–105 follow
all encoding work); any failure propagates without touching the target path. -/
def save_jvol {α : Type} (fs : FS α) (path : JPath) (array : Vol)
    (ijk_to_ras : List (List ℚ)) (block_size : ℤ := 4) (quality : ℤ := 60) :
    Except String (FS α) := do
  let d ← save_jvol_dict array ijk_to_ras block_size quality
  pure (fsWrite fs path (.jvol d))

/-- Field access on a loaded container (`np.load` mapping). -/
def getField (loaded : List (String × Value)) (key : String) :
    Except String Value :=
  match loaded.lookup key with
  | some v => .ok v
  | none => .error ("KeyError: " ++ key)

/-- Expect a float matrix. -/
def Value.asMat : Value → Except String (List (List ℚ))
  | .mat m => .ok m
  | _ => .error "expected a float matrix"

/-- Expect a quantization table. -/
def Value.asQt : Value → Except String QTable
  | .qt t => .ok t
  | _ => .error "expected a quantization table"

/-- Expect a signed-integer array (the dtype tag is dropped on load). -/
def Value.asIArr : Value → Except String (List ℤ)
  | .iarr _ xs => .ok xs
  | _ => .error "expected an integer array"

/-- Expect an unsigned-integer array (the dtype tag is dropped on load). -/
def Value.asNArr : Value → Except String (List ℕ)
  | .narr _ xs => .ok xs
  | _ => .error "expected an unsigned integer array"

/-- Expect an integer scalar. -/
def Value.asIScalar : Value → Except String ℤ
  | .iscalar x => .ok x
  | _ => .error "expected an integer scalar"

/-- Expect a natural scalar. -/
def Value.asNScalar : Value → Except String ℕ
  | .nscalar n => .ok n
  | _ => .error "expected a natural scalar"

/-- Expect a dtype descriptor. -/
def Value.asDtype : Value → Except String Dtype
  | .dtypeVal d => .ok d
  | _ => .error "expected a dtype"

/-- io.py `fill_ijk_to_ras` (lines 133–135): append the fixed last row
`[0, 0, 0, 1]` to the stored 3×4 block. -/
def fill_ijk_to_ras (ijk_to_ras : List (List ℚ)) : List (List ℚ) :=
  ijk_to_ras ++ [[0, 0, 0, 1]]

/-- io.py `open_jvol` (lines 108–130): read every container field back under
the same names `save_jvol` wrote (the `FormatKeys` members are `str`-valued,
so indexing by member and by `.value` coincide), rebuild the `HuffmanCoding`
and the 4×4 transform, and run the decode facade. -/
def open_jvol (loaded : List (String × Value)) :
    Except String (Vol × List (List ℚ)) := do
  let m ← (← getField loaded FormatKeys.IJK_TO_RAS).asMat
  let ijk_to_ras := fill_ijk_to_ras m
  let quantization_block ← (← getField loaded FormatKeys.QUANTIZATION_BLOCK).asQt
  let hdata ← (← getField loaded "huffman_data").asNArr
  let hsv ← (← getField loaded "huffman_symbols_values").asNArr
  let hsc ← (← getField loaded "huffman_symbols_counts").asNArr
  let hbits ← (← getField loaded "huffman_bitsizes").asNArr
  let hvals ← (← getField loaded "huffman_values").asIArr
  let heof ← (← getField loaded "huffman_eof_symbol").asNScalar
  let huffman_coding : HuffmanCoding :=
    { data := hdata, symbols_values := hsv, symbols_counts := hsc,
      bitsizes := hbits, values := hvals, eof_symbol := heof }
  let dc_rle_values ← (← getField loaded FormatKeys.DC_RLE_VALUES).asIArr
  let dc_rle_counts ← (← getField loaded FormatKeys.DC_RLE_COUNTS).asNArr
  let shapeList ← (← getField loaded FormatKeys.SHAPE).asNArr
  let target_shape ←
    match shapeList with
    | [a, b, c] => Except.ok ((a, b, c) : ℕ × ℕ × ℕ)
    | _ => Except.error "bad shape field"
  let intercept ← (← getField loaded FormatKeys.INTERCEPT).asIScalar
  let slope ← (← getField loaded FormatKeys.SLOPE).asIScalar
  let dtype ← (← getField loaded FormatKeys.DTYPE).asDtype
  let array ← decode_array dc_rle_values dc_rle_counts quantization_block
    target_shape intercept slope dtype huffman_coding
  pure (array, ijk_to_ras)

/-- io.py `open_jvol` at the path level: `np.load(path)` then parse. -/
def open_jvol_path {α : Type} (fs : FS α) (path : JPath) :
    Except String (Vol × List (List ℚ)) :=
  match fs.lookup path with
  | some (.jvol d) => open_jvol d
  | some (.itk _) => .error "np.load: not a jvol container"
  | none => .error "FileNotFoundError"

/-- io.py `open_itk_image` (lines 52–56): delegates to the external ITK
reader, an opaque collaborator passed as a function (spec §6). -/
def open_itk_image {α : Type} (itkRead : α → Except String (Vol × List (List ℚ)))
    (fs : FS α) (path : JPath) : Except String (Vol × List (List ℚ)) :=
  match fs.lookup path with
  | some (.itk content) => itkRead content
  | some (.jvol _) => .error "itk.imread: unsupported file"
  | none => .error "FileNotFoundError"

/-- io.py `save_itk_image` (lines 59–65): delegates to the external ITK
writer; takes no tuning parameters. -/
def save_itk_image {α : Type} (itkWrite : Vol → List (List ℚ) → α)
    (fs : FS α) (path : JPath) (array : Vol) (ijk_to_ras : List (List ℚ)) :
    FS α :=
  fsWrite fs path (.itk (itkWrite array ijk_to_ras))

/-- io.py `open_image` (lines 35–37): pure extension dispatch between the
native reader and the generic ITK reader. -/
def open_image {α : Type} (itkRead : α → Except String (Vol × List (List ℚ)))
    (fs : FS α) (path : JPath) : Except String (Vol × List (List ℚ)) :=
  if path.suffix = ".jvol" then open_jvol_path fs path
  else open_itk_image itkRead fs path

/-- Keyword arguments forwarded by `save_image` (`**kwargs: int`). -/
abbrev Kwargs : Type := List (String × ℤ)

/-- io.py `save_image` (lines 40–49): extension dispatch; for the native
suffix the kwargs are forwarded to `save_jvol` (whose signature admits only
`block_size` and `quality`, with defaults 4 and 60); otherwise
`save_itk_image` is called and the kwargs are dropped. -/
def save_image {α : Type} (itkWrite : Vol → List (List ℚ) → α) (fs : FS α)
    (array : Vol) (ijk_to_ras : List (List ℚ)) (path : JPath)
    (kwargs : Kwargs) : Except String (FS α) :=
  if path.suffix = ".jvol" then
    if kwargs.all (fun kv => kv.1 == "block_size" || kv.1 == "quality") then
      save_jvol fs path array ijk_to_ras
        ((kwargs.lookup "block_size").getD 4) ((kwargs.lookup "quality").getD 60)
    else .error "TypeError: save_jvol got an unexpected keyword argument"
  else .ok (save_itk_image itkWrite fs path array ijk_to_ras)

/-- The quantization table `save_jvol` derives for a cubic block of edge
`block_size` at the given `quality` (the success value of
`get_quantization_table (bs, bs, bs) q`). -/
def qtOf (bs q : ℤ) : QTable :=
  { b1 := bs.toNat, b2 := bs.toNat, b3 := bs.toNat,
    divisors := (rasterIdx bs.toNat bs.toNat bs.toNat).map fun p =>
      max 1 ((1 + p.1 + p.2.1 + p.2.2) * (100 - q.toNat) / 50) }

/-! ## Concrete instances used in witnesses and counterexamples -/

/-- Identity 4×4 transform. -/
def exMat : List (List ℚ) := [[1, 0, 0, 0], [0, 1, 0, 0], [0, 0, 1, 0], [0, 0, 0, 1]]

/-- A 3×2×2 int16 volume; the first axis is not divisible by block size 2. -/
def exVol : Vol :=
  { s1 := 3, s2 := 2, s3 := 2,
    data := [5, 1, 2, 8, 3, 3, 9, 0, 4, 4, 4, 7], dtype := .int16 }

/-- A single-voxel uint8 volume. -/
def exVol1 : Vol := { s1 := 1, s2 := 1, s3 := 1, data := [5], dtype := .uint8 }

/-- The empty volume: numpy's `array.min()` raises on it. -/
def exVolEmpty : Vol := { s1 := 0, s2 := 0, s3 := 0, data := [], dtype := .uint8 }

/-- A constant volume with a first axis of length `2 ^ 16`, overflowing the
uint16 shape field. -/
def exVolBig : Vol :=
  { s1 := 65536, s2 := 1, s3 := 1, data := List.replicate 65536 0, dtype := .uint8 }

/-! ## Theorems: generic helpers -/

theorem length_rasterIdx (d1 d2 d3 : ℕ) :
    (rasterIdx d1 d2 d3).length = d1 * d2 * d3 := by
  simp [rasterIdx]

theorem rleExpand_cons (p : ℤ × ℕ) (l : List (ℤ × ℕ)) :
    rleExpand (p :: l) = List.replicate p.2 p.1 ++ rleExpand l := by
  simp [rleExpand]

theorem rleEncode_cons (x : ℤ) (xs : List ℤ) :
    rleEncode (x :: xs) =
      match rleEncode xs with
      | [] => [(x, 1)]
      | (y, n) :: rest =>
        if x = y then (y, n + 1) :: rest else (x, 1) :: (y, n) :: rest := rfl

/-- Spec §4.3: run-length decode inverts run-length encode. -/
theorem rleExpand_rleEncode (s : List ℤ) : rleExpand (rleEncode s) = s := by
  induction s with
  | nil => rfl
  | cons x xs ih =>
    cases h : rleEncode xs with
    | nil =>
      have hxs : xs = [] := by
        rw [h] at ih; simpa [rleExpand] using ih.symm
      rw [rleEncode_cons, h, hxs]
      rfl
    | cons p rest =>
      obtain ⟨y, n⟩ := p
      rw [h] at ih
      rw [rleEncode_cons, h]
      dsimp only
      by_cases hxy : x = y
      · subst hxy
        rw [if_pos rfl, rleExpand_cons] at *
        rw [← ih]
        simp [List.replicate_succ]
      · rw [if_neg hxy, rleExpand_cons, ih]
        simp [List.replicate]

/-! ## Theorems: bit strings and byte packing -/

theorem natBits_length (c w : ℕ) : (natBits c w).length = w := by
  induction w with
  | zero => rfl
  | succ n ih => simp [natBits, ih]

theorem natBits_agree (a b w : ℕ) :
    natBits a w = natBits b w ↔ ∀ i, i < w → a.testBit i = b.testBit i := by
  induction w with
  | zero => simp [natBits]
  | succ n ih =>
    simp only [natBits, List.cons.injEq, ih]
    constructor
    · rintro ⟨h1, h2⟩ i hi
      rcases Nat.lt_succ_iff_lt_or_eq.mp hi with h | rfl
      · exact h2 i h
      · exact h1
    · exact fun h => ⟨h n (Nat.lt_succ_self n), fun i hi => h i (by omega)⟩

theorem natBits_inj {a b w : ℕ} (ha : a < 2 ^ w) (hb : b < 2 ^ w)
    (h : natBits a w = natBits b w) : a = b := by
  refine Nat.eq_of_testBit_eq fun i => ?_
  by_cases hi : i < w
  · exact (natBits_agree a b w).mp h i hi
  · have ha' : a < 2 ^ i :=
      lt_of_lt_of_le ha (Nat.pow_le_pow_right (by omega) (by omega))
    have hb' : b < 2 ^ i :=
      lt_of_lt_of_le hb (Nat.pow_le_pow_right (by omega) (by omega))
    rw [Nat.testBit_lt_two_pow ha', Nat.testBit_lt_two_pow hb']

theorem testBit_div_pow (c b n : ℕ) :
    (c / 2 ^ b).testBit n = c.testBit (n + b) := by
  simp [Nat.testBit_to_div_mod, Nat.div_div_eq_div_mul, ← pow_add]
  ring_nf

/-- Splitting an MSB-first window: high bits then low bits. -/
theorem natBits_add (c a b : ℕ) :
    natBits c (a + b) = natBits (c / 2 ^ b) a ++ natBits c b := by
  induction a with
  | zero => simp [natBits]
  | succ n ih =>
    have h : n + 1 + b = (n + b) + 1 := by omega
    rw [h, natBits, ih, natBits, List.cons_append, testBit_div_pow]

theorem bitsVal_aux (bs : List Bool) (acc : ℕ) :
    bs.foldl (fun n b => 2 * n + (if b then 1 else 0)) acc
      = acc * 2 ^ bs.length + bitsVal bs := by
  induction bs generalizing acc with
  | nil => simp [bitsVal]
  | cons b bs ih =>
    rw [List.foldl_cons, ih]
    have hb : bitsVal (b :: bs)
        = (2 * 0 + if b then 1 else 0) * 2 ^ bs.length + bitsVal bs := by
      rw [bitsVal, List.foldl_cons, ih]
    rw [hb]
    rcases b <;> simp [List.length_cons, pow_succ] <;> ring

theorem bitsVal_cons (b : Bool) (bs : List Bool) :
    bitsVal (b :: bs) = (if b then 1 else 0) * 2 ^ bs.length + bitsVal bs := by
  rw [bitsVal, List.foldl_cons, bitsVal_aux]
  simp

theorem bitsVal_lt (bs : List Bool) : bitsVal bs < 2 ^ bs.length := by
  induction bs with
  | nil => simp [bitsVal]
  | cons b bs ih =>
    rw [bitsVal_cons]
    have hp : 0 < 2 ^ bs.length := Nat.pos_pow_of_pos _ (by omega)
    rcases b <;> simp [List.length_cons, pow_succ] <;> omega

/-- Reading back the bits of a bit list's value. -/
theorem natBits_bitsVal (bs : List Bool) : natBits (bitsVal bs) bs.length = bs := by
  induction bs with
  | nil => rfl
  | cons b bs ih =>
    rw [List.length_cons, natBits, bitsVal_cons]
    have hr : bitsVal bs < 2 ^ bs.length := bitsVal_lt bs
    have hhead : ((if b then 1 else 0) * 2 ^ bs.length + bitsVal bs).testBit bs.length = b := by
      rcases b with _ | _
      · simpa using Nat.testBit_lt_two_pow hr
      · have e : ((if true = true then (1 : ℕ) else 0)) = 1 := rfl
        rw [e, one_mul, Nat.testBit_two_pow_add_eq, Nat.testBit_lt_two_pow hr]
        rfl
    have htail : natBits ((if b then 1 else 0) * 2 ^ bs.length + bitsVal bs) bs.length
        = natBits (bitsVal bs) bs.length := by
      rw [natBits_agree]
      intro i hi
      rcases b with _ | _
      · simp
      · have e : ((if true = true then (1 : ℕ) else 0)) = 1 := rfl
        rw [e, one_mul, Nat.testBit_two_pow_add_gt hi]
    rw [hhead, htail, ih]

theorem unpackBits_cons (n : ℕ) (rest : List ℕ) :
    unpackBits (n :: rest) = natBits n 8 ++ unpackBits rest := by
  simp [unpackBits]

theorem natBits_byteOf (bs : List Bool) (h : bs.length ≤ 8) :
    natBits (byteOf bs) 8 = bs ++ List.replicate (8 - bs.length) false := by
  have hl : (bs ++ List.replicate (8 - bs.length) false).length = 8 := by
    simp; omega
  have hv := natBits_bitsVal (bs ++ List.replicate (8 - bs.length) false)
  rw [hl] at hv
  exact hv

theorem packBits_nil : packBits [] = [] := by rw [packBits]

theorem packBits_cons (b : Bool) (bs : List Bool) :
    packBits (b :: bs)
      = byteOf (List.take 8 (b :: bs)) :: packBits (List.drop 7 bs) := by
  rw [packBits]

/-- Unpacking inverts packing, up to trailing zero padding bits. -/
theorem unpackBits_packBits (bs : List Bool) :
    ∃ k, unpackBits (packBits bs) = bs ++ List.replicate k false := by
  induction bs using packBits.induct with
  | case1 =>
    refine ⟨0, ?_⟩
    rw [packBits_nil]
    rfl
  | case2 b bs ih =>
    obtain ⟨k, hk⟩ := ih
    rw [packBits_cons, unpackBits_cons, hk]
    have htake : (List.take 8 (b :: bs)).length ≤ 8 := by
      rw [List.length_take]
      omega
    rw [natBits_byteOf _ htake]
    by_cases h8 : bs.length ≤ 7
    · have hdrop : List.drop 7 bs = [] := List.drop_eq_nil_of_le h8
      have htk : List.take 8 (b :: bs) = b :: bs :=
        List.take_of_length_le (by simp; omega)
      rw [hdrop, htk]
      refine ⟨(8 - (b :: bs).length) + k, ?_⟩
      rw [List.replicate_add]
      simp
    · have hlen : (List.take 8 (b :: bs)).length = 8 := by
        rw [List.length_take]
        simp
        omega
      rw [hlen]
      have hfull : List.take 8 (b :: bs) ++ List.drop 7 bs = b :: bs := by
        have hd : List.drop 7 bs = List.drop 8 (b :: bs) := rfl
        rw [hd, List.take_append_drop]
      refine ⟨k, ?_⟩
      simp only [Nat.sub_self, List.replicate_zero, List.append_nil]
      rw [← List.append_assoc, hfull]

/-! ## Theorems: Huffman worklist and tree -/

theorem combine_nil (f : ℕ) : combine f [] = none := by cases f <;> rfl

theorem combine_single (f w : ℕ) (t : HTree) : combine f [(w, t)] = some t := by
  cases f <;> rfl

theorem combine_succ_cons (f w1 w2 : ℕ) (t1 t2 : HTree) (rest : List (ℕ × HTree)) :
    combine (f + 1) ((w1, t1) :: (w2, t2) :: rest)
      = combine f (insertWL (w1 + w2, .node t1 t2) rest) := rfl

theorem insertWL_perm (x : ℕ × HTree) (l : List (ℕ × HTree)) :
    List.Perm (insertWL x l) (x :: l) := by
  induction l with
  | nil => exact List.Perm.refl _
  | cons y ys ih =>
    rw [insertWL]
    by_cases h : x.1 < y.1
    · rw [if_pos h]
    · rw [if_neg h]
      exact (ih.cons y).trans (List.Perm.swap x y ys)

theorem insertWL_length (x : ℕ × HTree) (l : List (ℕ × HTree)) :
    (insertWL x l).length = l.length + 1 :=
  (insertWL_perm x l).length_eq

theorem insertWL_ne_nil (x : ℕ × HTree) (l : List (ℕ × HTree)) :
    insertWL x l ≠ [] := by
  intro h
  have := insertWL_length x l
  rw [h] at this
  simp at this

theorem sortWL_perm (l : List (ℕ × HTree)) : List.Perm (sortWL l) l := by
  induction l with
  | nil => exact List.Perm.refl _
  | cons x xs ih =>
    rw [sortWL, List.foldr_cons]
    exact (insertWL_perm x _).trans (ih.cons x)

theorem combine_isSome (fuel : ℕ) :
    ∀ wl : List (ℕ × HTree), wl ≠ [] → wl.length ≤ fuel + 1 →
      ∃ t, combine fuel wl = some t := by
  induction fuel with
  | zero =>
    intro wl hne hlen
    match wl with
    | [] => exact absurd rfl hne
    | [(w, t)] => exact ⟨t, combine_single 0 w t⟩
    | x :: y :: rest => simp at hlen
  | succ f ih =>
    intro wl hne hlen
    match wl with
    | [] => exact absurd rfl hne
    | [(w, t)] => exact ⟨t, combine_single _ w t⟩
    | (w1, t1) :: (w2, t2) :: rest =>
      rw [combine_succ_cons]
      apply ih
      · exact insertWL_ne_nil _ _
      · rw [insertWL_length]
        simp at hlen
        omega

theorem combine_mem (fuel : ℕ) :
    ∀ (wl : List (ℕ × HTree)) (t : HTree), combine fuel wl = some t →
      ∀ s, (∃ p ∈ wl, s ∈ p.2.syms) → s ∈ t.syms := by
  induction fuel with
  | zero =>
    intro wl t hc s hs
    match wl with
    | [] => rw [combine_nil] at hc; cases hc
    | [(w, u)] =>
      rw [combine_single] at hc
      obtain ⟨q, hq, hqs⟩ := hs
      rw [List.mem_singleton] at hq
      subst hq
      injection hc with h
      rw [← h]
      exact hqs
    | x :: y :: rest => cases hc
  | succ f ih =>
    intro wl t hc s hs
    match wl with
    | [] => rw [combine_nil] at hc; cases hc
    | [(w, u)] =>
      rw [combine_single] at hc
      obtain ⟨q, hq, hqs⟩ := hs
      rw [List.mem_singleton] at hq
      subst hq
      injection hc with h
      rw [← h]
      exact hqs
    | (w1, t1) :: (w2, t2) :: rest =>
      rw [combine_succ_cons] at hc
      apply ih _ t hc s
      obtain ⟨q, hq, hqs⟩ := hs
      have hsub : ((w1 + w2, HTree.node t1 t2) :: rest) ⊆
          insertWL (w1 + w2, HTree.node t1 t2) rest :=
        fun p hp => (insertWL_perm _ _).symm.subset hp
      rcases List.mem_cons.mp hq with rfl | hq'
      · exact ⟨(w1 + w2, HTree.node t1 t2), hsub (by simp),
          by simp [HTree.syms]; exact Or.inl hqs⟩
      · rcases List.mem_cons.mp hq' with rfl | hq''
        · exact ⟨(w1 + w2, HTree.node t1 t2), hsub (by simp),
            by simp [HTree.syms]; exact Or.inr hqs⟩
        · exact ⟨q, hsub (by simp [hq'']), hqs⟩

theorem leavesD_fst (t : HTree) (d : ℕ) :
    (t.leavesD d).map Prod.fst = t.syms := by
  induction t generalizing d with
  | leaf s => rfl
  | node l r ihl ihr => simp [HTree.leavesD, HTree.syms, ihl, ihr]

/-! ## Theorems: Kraft sums -/

theorem kraftSum_nil : kraftSum [] = 0 := rfl

theorem kraftSum_cons (p : ℕ × ℕ) (l : List (ℕ × ℕ)) :
    kraftSum (p :: l) = ((2 : ℚ) ^ p.2)⁻¹ + kraftSum l := by
  simp [kraftSum]

theorem kraftSum_append (a b : List (ℕ × ℕ)) :
    kraftSum (a ++ b) = kraftSum a + kraftSum b := by
  simp [kraftSum]

theorem kraftSum_nonneg (l : List (ℕ × ℕ)) : 0 ≤ kraftSum l := by
  apply List.sum_nonneg
  intro x hx
  simp only [List.mem_map] at hx
  obtain ⟨p, _, rfl⟩ := hx
  positivity

theorem kraftSum_perm {a b : List (ℕ × ℕ)} (h : List.Perm a b) :
    kraftSum a = kraftSum b :=
  (h.map _).sum_eq

/-- Kraft equality for binary-tree leaf depths. -/
theorem kraft_leavesD (t : HTree) (d : ℕ) :
    kraftSum (t.leavesD d) = ((2 : ℚ) ^ d)⁻¹ := by
  induction t generalizing d with
  | leaf s => simp [HTree.leavesD, kraftSum]
  | node l r ihl ihr =>
    rw [HTree.leavesD, kraftSum_append, ihl, ihr]
    have h2 : ((2 : ℚ) ^ d) ≠ 0 := by positivity
    rw [pow_succ]
    field_simp
    ring

theorem kraftSum_clamp (xs : List (ℕ × ℕ)) :
    kraftSum (xs.map fun p => (p.1, max 1 p.2)) ≤ kraftSum xs := by
  unfold kraftSum
  rw [List.map_map]
  apply List.sum_le_sum
  intro p _
  simp only [Function.comp]
  apply inv_anti₀
  · positivity
  · exact pow_le_pow_right₀ (by norm_num) (le_max_right 1 p.2)

/-! ## Theorems: canonical code assignment -/

theorem assignAux_cons (code plen s l : ℕ) (rest : List (ℕ × ℕ)) :
    assignAux code plen ((s, l) :: rest)
      = (s, l, code * 2 ^ (l - plen))
          :: assignAux (code * 2 ^ (l - plen) + 1) l rest := rfl

theorem assignAux_keys (code plen : ℕ) (xs : List (ℕ × ℕ)) :
    (assignAux code plen xs).map (fun e => (e.1, e.2.1)) = xs := by
  induction xs generalizing code plen with
  | nil => rfl
  | cons p rest ih =>
    obtain ⟨s, l⟩ := p
    rw [assignAux_cons, List.map_cons, ih]

theorem assignAux_mem_keys (code plen : ℕ) (xs : List (ℕ × ℕ)) {e : ℕ × ℕ × ℕ}
    (he : e ∈ assignAux code plen xs) : (e.1, e.2.1) ∈ xs := by
  rw [← assignAux_keys code plen xs]
  exact List.mem_map_of_mem _ he

theorem assignAux_mem (code plen : ℕ) (xs : List (ℕ × ℕ)) (s l : ℕ)
    (h : (s, l) ∈ xs) : ∃ c, (s, l, c) ∈ assignAux code plen xs := by
  induction xs generalizing code plen with
  | nil => cases h
  | cons p rest ih =>
    obtain ⟨s0, l0⟩ := p
    rw [assignAux_cons]
    rcases List.mem_cons.mp h with heq | hmem
    · cases heq
      exact ⟨code * 2 ^ (l - plen), List.mem_cons_self _ _⟩
    · obtain ⟨c, hc⟩ := ih _ _ hmem
      exact ⟨c, List.mem_cons_of_mem _ hc⟩

theorem assignAux_lower (code plen : ℕ) (xs : List (ℕ × ℕ))
    (hsort : List.Pairwise (fun a b : ℕ × ℕ => a.2 ≤ b.2) xs)
    (hp : ∀ p ∈ xs, plen ≤ p.2) :
    ∀ e ∈ assignAux code plen xs, code * 2 ^ (e.2.1 - plen) ≤ e.2.2 := by
  induction xs generalizing code plen with
  | nil => intro e he; cases he
  | cons p rest ih =>
    obtain ⟨s, l⟩ := p
    intro e he
    rw [assignAux_cons] at he
    have hpl : plen ≤ l := hp (s, l) (List.mem_cons_self _ _)
    rcases List.mem_cons.mp he with rfl | hmem
    · simp
    · have hl : ∀ p ∈ rest, l ≤ p.2 := (List.pairwise_cons.mp hsort).1
      have hkey : (e.1, e.2.1) ∈ rest := assignAux_mem_keys _ _ _ hmem
      have hle : l ≤ e.2.1 := hl _ hkey
      have hlow := ih (code * 2 ^ (l - plen) + 1) l hsort.of_cons hl e hmem
      have hsplit : e.2.1 - plen = (l - plen) + (e.2.1 - l) := by omega
      calc code * 2 ^ (e.2.1 - plen)
          = code * 2 ^ (l - plen) * 2 ^ (e.2.1 - l) := by
            rw [hsplit, pow_add, mul_assoc]
        _ ≤ (code * 2 ^ (l - plen) + 1) * 2 ^ (e.2.1 - l) :=
            Nat.mul_le_mul_right _ (by omega)
        _ ≤ e.2.2 := hlow

theorem assignAux_pairwise (code plen : ℕ) (xs : List (ℕ × ℕ))
    (hsort : List.Pairwise (fun a b : ℕ × ℕ => a.2 ≤ b.2) xs)
    (hp : ∀ p ∈ xs, plen ≤ p.2) :
    List.Pairwise
      (fun a b : ℕ × ℕ × ℕ =>
        a.2.1 ≤ b.2.1 ∧ (a.2.2 + 1) * 2 ^ (b.2.1 - a.2.1) ≤ b.2.2)
      (assignAux code plen xs) := by
  induction xs generalizing code plen with
  | nil => exact List.Pairwise.nil
  | cons p rest ih =>
    obtain ⟨s, l⟩ := p
    rw [assignAux_cons]
    have hl : ∀ p ∈ rest, l ≤ p.2 := (List.pairwise_cons.mp hsort).1
    refine List.pairwise_cons.mpr ⟨?_, ih _ _ hsort.of_cons hl⟩
    intro e he
    have hkey : (e.1, e.2.1) ∈ rest := assignAux_mem_keys _ _ _ he
    refine ⟨hl _ hkey, ?_⟩
    simpa using assignAux_lower _ _ _ hsort.of_cons hl e he

theorem assignAux_upper (code plen : ℕ) (xs : List (ℕ × ℕ))
    (hsort : List.Pairwise (fun a b : ℕ × ℕ => a.2 ≤ b.2) xs)
    (hp : ∀ p ∈ xs, plen ≤ p.2)
    (hk : (code : ℚ) * ((2 : ℚ) ^ plen)⁻¹ + kraftSum xs ≤ 1) :
    ∀ e ∈ assignAux code plen xs, e.2.2 + 1 ≤ 2 ^ e.2.1 := by
  induction xs generalizing code plen with
  | nil => intro e he; cases he
  | cons p rest ih =>
    obtain ⟨s, l⟩ := p
    have hpl : plen ≤ l := hp (s, l) (List.mem_cons_self _ _)
    obtain ⟨a, rfl⟩ : ∃ a, l = plen + a := ⟨l - plen, by omega⟩
    have hl : ∀ p ∈ rest, plen + a ≤ p.2 := (List.pairwise_cons.mp hsort).1
    rw [kraftSum_cons] at hk
    have hstep : ((code * 2 ^ (plen + a - plen) + 1 : ℕ) : ℚ) * ((2 : ℚ) ^ (plen + a))⁻¹
        = (code : ℚ) * ((2 : ℚ) ^ plen)⁻¹ + ((2 : ℚ) ^ (plen + a))⁻¹ := by
      have hred : plen + a - plen = a := by omega
      rw [hred]
      push_cast
      have h2 : ((2 : ℚ) ^ (plen + a)) ≠ 0 := by positivity
      have h2' : ((2 : ℚ) ^ plen) ≠ 0 := by positivity
      field_simp
      rw [pow_add]
      ring
    intro e he
    rw [assignAux_cons] at he
    rcases List.mem_cons.mp he with rfl | hmem
    · -- head entry: transfer the Kraft bound to ℕ
      have hle1 : ((code * 2 ^ (plen + a - plen) + 1 : ℕ) : ℚ) * ((2 : ℚ) ^ (plen + a))⁻¹ ≤ 1 := by
        rw [hstep]
        have := kraftSum_nonneg rest
        linarith
      rw [← div_eq_mul_inv, div_le_one (by positivity)] at hle1
      have : (code * 2 ^ (plen + a - plen) + 1 : ℕ) ≤ 2 ^ (plen + a) := by
        exact_mod_cast hle1
      simpa using this
    · refine ih (code * 2 ^ (plen + a - plen) + 1) (plen + a) hsort.of_cons hl ?_ e hmem
      rw [hstep]
      linarith

/-! ## Theorems: canonical codes are prefix-free -/

theorem natBits_nonpre {li lj ci cj : ℕ} (hl : li ≤ lj)
    (hci : ci + 1 ≤ 2 ^ li) (hcj : cj + 1 ≤ 2 ^ lj)
    (hgrow : (ci + 1) * 2 ^ (lj - li) ≤ cj) :
    ¬ (natBits ci li <+: natBits cj lj) ∧ ¬ (natBits cj lj <+: natBits ci li) := by
  have hdec : natBits cj lj = natBits (cj / 2 ^ (lj - li)) li ++ natBits cj (lj - li) := by
    have h : lj = li + (lj - li) := by omega
    calc natBits cj lj = natBits cj (li + (lj - li)) := by rw [← h]
      _ = natBits (cj / 2 ^ (lj - li)) li ++ natBits cj (lj - li) :=
          natBits_add cj li (lj - li)
  have hdiv_lt : cj / 2 ^ (lj - li) < 2 ^ li := by
    apply Nat.div_lt_of_lt_mul
    have h : lj - li + li = lj := by omega
    calc cj < 2 ^ lj := by omega
      _ = 2 ^ (lj - li) * 2 ^ li := by rw [← pow_add, h]
  constructor
  · intro hpre
    have hA : natBits (cj / 2 ^ (lj - li)) li <+: natBits cj lj := ⟨_, hdec.symm⟩
    have hpre' : natBits ci li <+: natBits (cj / 2 ^ (lj - li)) li :=
      List.prefix_of_prefix_length_le hpre hA (by rw [natBits_length, natBits_length])
    have heq := hpre'.eq_of_length (by rw [natBits_length, natBits_length])
    have hcd : ci = cj / 2 ^ (lj - li) := natBits_inj (by omega) hdiv_lt heq
    have hge : ci + 1 ≤ cj / 2 ^ (lj - li) := by
      rw [Nat.le_div_iff_mul_le (by positivity)]
      exact hgrow
    omega
  · intro hpre
    have hlen := hpre.length_le
    rw [natBits_length, natBits_length] at hlen
    have hll : li = lj := by omega
    subst hll
    have heq := hpre.eq_of_length (by rw [natBits_length, natBits_length])
    have hji : cj = ci := natBits_inj (by omega) (by omega) heq
    simp at hgrow
    omega

theorem codesOf_keys (pairs : List (ℕ × ℕ)) :
    (codesOf pairs).map Prod.fst = pairs.map Prod.fst := by
  unfold codesOf
  rw [List.map_map]
  conv_rhs => rw [← assignAux_keys 0 0 pairs, List.map_map]
  rfl

theorem codesOf_mem_spec (pairs : List (ℕ × ℕ)) {p : ℕ × List Bool}
    (hp : p ∈ codesOf pairs) :
    ∃ l c, (p.1, l) ∈ pairs ∧ p.2 = natBits c l ∧ p.2.length = l := by
  unfold codesOf at hp
  obtain ⟨e, he, rfl⟩ := List.mem_map.mp hp
  exact ⟨e.2.1, e.2.2, assignAux_mem_keys _ _ _ he, rfl, natBits_length _ _⟩

theorem codesOf_pairwise_nonpre (pairs : List (ℕ × ℕ))
    (hsort : List.Pairwise (fun a b : ℕ × ℕ => a.2 ≤ b.2) pairs)
    (hk : kraftSum pairs ≤ 1) :
    List.Pairwise (fun a b : ℕ × List Bool => ¬ (a.2 <+: b.2) ∧ ¬ (b.2 <+: a.2))
      (codesOf pairs) := by
  unfold codesOf
  rw [List.pairwise_map]
  have hupper := assignAux_upper 0 0 pairs hsort (fun p _ => Nat.zero_le _)
    (by simpa using hk)
  have hpw := assignAux_pairwise 0 0 pairs hsort (fun p _ => Nat.zero_le _)
  refine hpw.imp_of_mem ?_
  intro a b ha hb hab
  exact natBits_nonpre hab.1 (hupper a ha) (hupper b hb) hab.2

/-! ## Theorems: table lookup and symbol decoding -/

theorem lookup_cons {α β : Type} [BEq α] (k a : α) (v : β)
    (l : List (α × β)) :
    List.lookup k ((a, v) :: l)
      = if k == a then some v else List.lookup k l := by
  have hm : List.lookup k ((a, v) :: l)
      = match k == a with
        | true => some v
        | false => List.lookup k l := rfl
  rw [hm]
  cases k == a <;> rfl

theorem mem_of_lookup_eq_some {α β : Type} [BEq α] [LawfulBEq α]
    {l : List (α × β)} {k : α} {v : β}
    (h : List.lookup k l = some v) : (k, v) ∈ l := by
  induction l with
  | nil => cases h
  | cons p tl ih =>
    obtain ⟨a, b⟩ := p
    rw [lookup_cons] at h
    cases hk : k == a with
    | true =>
      rw [hk] at h
      simp only [if_true] at h
      injection h with h
      have hka : k = a := eq_of_beq hk
      subst hka
      subst h
      exact List.mem_cons_self _ _
    | false =>
      rw [hk] at h
      simp only [Bool.false_eq_true, if_false] at h
      exact List.mem_cons_of_mem _ (ih h)

theorem lookup_isSome_of_mem_keys {β : Type} {l : List (ℕ × β)} {k : ℕ}
    (h : k ∈ l.map Prod.fst) : ∃ v, List.lookup k l = some v := by
  induction l with
  | nil => simp at h
  | cons p tl ih =>
    obtain ⟨a, b⟩ := p
    rw [lookup_cons]
    by_cases hk : k = a
    · refine ⟨b, ?_⟩
      rw [if_pos (by exact beq_iff_eq.mpr hk)]
    · rw [if_neg (by simp [hk])]
      apply ih
      simp at h
      rcases h with h | h
      · exact absurd h hk
      · simpa using h

theorem decodeOne_cons (s0 : ℕ) (c0 : List Bool) (tl : List (ℕ × List Bool))
    (bits : List Bool) :
    decodeOne ((s0, c0) :: tl) bits
      = if c0 <+: bits then some (s0, bits.drop c0.length)
        else decodeOne tl bits := rfl

/-- With a pairwise non-prefix table, a stream headed by an entry's codeword
decodes to exactly that entry's symbol. -/
theorem decodeOne_spec (cs : List (ℕ × List Bool)) (s : ℕ) (c : List Bool)
    (hpw : List.Pairwise
      (fun a b : ℕ × List Bool => ¬ (a.2 <+: b.2) ∧ ¬ (b.2 <+: a.2)) cs)
    (hmem : (s, c) ∈ cs) (rest : List Bool) :
    decodeOne cs (c ++ rest) = some (s, rest) := by
  induction cs with
  | nil => cases hmem
  | cons hd tl ih =>
    obtain ⟨s0, c0⟩ := hd
    rw [decodeOne_cons]
    rcases List.mem_cons.mp hmem with heq | hmem'
    · cases heq
      rw [if_pos (List.prefix_append c rest)]
      rw [List.drop_left]
    · have hrel := (List.pairwise_cons.mp hpw).1 (s, c) hmem'
      dsimp only at hrel
      have hnot : ¬ (c0 <+: c ++ rest) := by
        intro hp
        rcases le_or_lt c0.length c.length with hle | hlt
        · exact hrel.1 (List.prefix_of_prefix_length_le hp (List.prefix_append c rest) hle)
        · exact hrel.2
            (List.prefix_of_prefix_length_le (List.prefix_append c rest) hp (by omega))
      rw [if_neg hnot]
      exact ih hpw.of_cons hmem'

theorem encodeSyms_nil (cs : List (ℕ × List Bool)) : encodeSyms cs [] = [] := rfl

theorem encodeSyms_cons (cs : List (ℕ × List Bool)) (s : ℕ) (ss : List ℕ) :
    encodeSyms cs (s :: ss) = (cs.lookup s).getD [] ++ encodeSyms cs ss := by
  simp [encodeSyms]

theorem encodeSyms_length_ge (cs : List (ℕ × List Bool)) (syms : List ℕ)
    (h : ∀ s ∈ syms, ∃ c, cs.lookup s = some c ∧ 1 ≤ c.length) :
    syms.length ≤ (encodeSyms cs syms).length := by
  induction syms with
  | nil => simp [encodeSyms]
  | cons s ss ih =>
    obtain ⟨c, hc, hlen⟩ := h s (List.mem_cons_self _ _)
    rw [encodeSyms_cons, hc]
    simp only [Option.getD_some, List.length_append, List.length_cons]
    have hih := ih (fun x hx => h x (List.mem_cons_of_mem _ hx))
    omega

theorem decodeLoop_succ (cs : List (ℕ × List Bool)) (eof f : ℕ) (bits : List Bool) :
    decodeLoop cs eof (f + 1) bits
      = match decodeOne cs bits with
        | none => none
        | some (s, rest) =>
          if s = eof then some []
          else
            match decodeLoop cs eof f rest with
            | none => none
            | some ss => some (s :: ss) := rfl

/-- The decode loop recovers an encoded symbol sequence, stopping exactly at
the sentinel and ignoring any trailing padding. -/
theorem decodeLoop_correct (cs : List (ℕ × List Bool)) (eof : ℕ) (eofc : List Bool)
    (hpw : List.Pairwise
      (fun a b : ℕ × List Bool => ¬ (a.2 <+: b.2) ∧ ¬ (b.2 <+: a.2)) cs)
    (heof : cs.lookup eof = some eofc) :
    ∀ (syms : List ℕ) (fuel : ℕ) (extra : List Bool),
      (∀ s ∈ syms, s ≠ eof) → (∀ s ∈ syms, ∃ c, cs.lookup s = some c) →
      syms.length < fuel →
      decodeLoop cs eof fuel (encodeSyms cs syms ++ (eofc ++ extra)) = some syms := by
  intro syms
  induction syms with
  | nil =>
    intro fuel extra _ _ hfuel
    obtain ⟨f, rfl⟩ : ∃ f, fuel = f + 1 := ⟨fuel - 1, by omega⟩
    rw [decodeLoop_succ]
    have hb : encodeSyms cs [] ++ (eofc ++ extra) = eofc ++ extra := by
      simp [encodeSyms]
    rw [hb, decodeOne_spec cs eof eofc hpw (mem_of_lookup_eq_some heof) extra]
    simp
  | cons s ss ih =>
    intro fuel extra hne hlk hfuel
    obtain ⟨f, rfl⟩ : ∃ f, fuel = f + 1 := ⟨fuel - 1, by omega⟩
    obtain ⟨c, hc⟩ := hlk s (List.mem_cons_self _ _)
    have hb : encodeSyms cs (s :: ss) ++ (eofc ++ extra)
        = c ++ (encodeSyms cs ss ++ (eofc ++ extra)) := by
      rw [encodeSyms_cons, hc]
      simp
    rw [decodeLoop_succ, hb,
      decodeOne_spec cs s c hpw (mem_of_lookup_eq_some hc) _]
    dsimp only
    rw [if_neg (hne s (List.mem_cons_self _ _))]
    rw [ih f _ (fun x hx => hne x (List.mem_cons_of_mem _ hx))
      (fun x hx => hlk x (List.mem_cons_of_mem _ hx))
      (by simp only [List.length_cons] at hfuel; omega)]

/-! ## Theorems: the Huffman table construction -/

theorem le_maxNat (l : List ℕ) : ∀ x ∈ l, x ≤ maxNat l := by
  induction l with
  | nil => intro x hx; cases hx
  | cons y ys ih =>
    intro x hx
    rcases List.mem_cons.mp hx with rfl | hx'
    · exact le_max_left _ _
    · exact le_trans (ih x hx') (le_max_right _ _)

theorem maxNat_succ_not_mem (l : List ℕ) : maxNat l + 1 ∉ l := by
  intro h
  have := le_maxNat l _ h
  omega

/-- The worklist `huffmanPairs` builds: shorthand for statements. -/
theorem huffmanPairs_eq (ac : List ℕ) (pairs : List (ℕ × ℕ))
    (h : huffmanPairs ac = some pairs) :
    ∃ t, combine (sortWL ((ac.dedup ++ [maxNat ac + 1]).map fun s =>
          (if s = maxNat ac + 1 then 1 else ac.count s, HTree.leaf s))).length
        (sortWL ((ac.dedup ++ [maxNat ac + 1]).map fun s =>
          (if s = maxNat ac + 1 then 1 else ac.count s, HTree.leaf s))) = some t
      ∧ pairs = List.insertionSort canonLE
          ((t.leavesD 0).map fun p => (p.1, max 1 p.2)) := by
  simp only [huffmanPairs] at h
  split at h
  · cases h
  · rename_i t ht
    injection h with h
    exact ⟨t, ht, h.symm⟩

theorem huffmanPairs_isSome (ac : List ℕ) :
    ∃ pairs, huffmanPairs ac = some pairs := by
  have hne : sortWL ((ac.dedup ++ [maxNat ac + 1]).map fun s =>
      (if s = maxNat ac + 1 then 1 else ac.count s, HTree.leaf s)) ≠ [] := by
    intro hnil
    have hlen := (sortWL_perm ((ac.dedup ++ [maxNat ac + 1]).map fun s =>
      (if s = maxNat ac + 1 then 1 else ac.count s, HTree.leaf s))).length_eq
    rw [hnil] at hlen
    simp at hlen
  obtain ⟨t, ht⟩ := combine_isSome
    (sortWL ((ac.dedup ++ [maxNat ac + 1]).map fun s =>
      (if s = maxNat ac + 1 then 1 else ac.count s, HTree.leaf s))).length
    (sortWL ((ac.dedup ++ [maxNat ac + 1]).map fun s =>
      (if s = maxNat ac + 1 then 1 else ac.count s, HTree.leaf s)))
    hne (by omega)
  simp only [huffmanPairs]
  rw [ht]
  exact ⟨_, rfl⟩

theorem huffmanPairs_sorted (ac : List ℕ) (pairs : List (ℕ × ℕ))
    (h : huffmanPairs ac = some pairs) :
    List.Pairwise (fun a b : ℕ × ℕ => a.2 ≤ b.2) pairs := by
  obtain ⟨t, _, rfl⟩ := huffmanPairs_eq ac pairs h
  have hs := List.sorted_insertionSort canonLE
    ((t.leavesD 0).map fun p => (p.1, max 1 p.2))
  exact hs.imp (fun hab => by unfold canonLE at hab; omega)

theorem huffmanPairs_kraft (ac : List ℕ) (pairs : List (ℕ × ℕ))
    (h : huffmanPairs ac = some pairs) : kraftSum pairs ≤ 1 := by
  obtain ⟨t, _, rfl⟩ := huffmanPairs_eq ac pairs h
  have hperm := List.perm_insertionSort canonLE
    ((t.leavesD 0).map fun p => (p.1, max 1 p.2))
  rw [kraftSum_perm hperm]
  calc kraftSum ((t.leavesD 0).map fun p => (p.1, max 1 p.2))
      ≤ kraftSum (t.leavesD 0) := kraftSum_clamp _
    _ = 1 := by rw [kraft_leavesD]; norm_num

theorem huffmanPairs_pos (ac : List ℕ) (pairs : List (ℕ × ℕ))
    (h : huffmanPairs ac = some pairs) : ∀ p ∈ pairs, 1 ≤ p.2 := by
  obtain ⟨t, _, rfl⟩ := huffmanPairs_eq ac pairs h
  intro p hp
  have hmem := (List.perm_insertionSort canonLE
    ((t.leavesD 0).map fun q => (q.1, max 1 q.2))).subset hp
  obtain ⟨q, _, rfl⟩ := List.mem_map.mp hmem
  exact le_max_left 1 q.2

theorem huffmanPairs_mem_syms (ac : List ℕ) (pairs : List (ℕ × ℕ))
    (h : huffmanPairs ac = some pairs) (s : ℕ)
    (hs : s ∈ ac ∨ s = maxNat ac + 1) : s ∈ pairs.map Prod.fst := by
  obtain ⟨t, hcomb, rfl⟩ := huffmanPairs_eq ac pairs h
  have halpha : s ∈ ac.dedup ++ [maxNat ac + 1] := by
    rcases hs with hs | rfl
    · exact List.mem_append_left _ (List.mem_dedup.mpr hs)
    · exact List.mem_append_right _ (by simp)
  have hwl : ∃ p ∈ sortWL ((ac.dedup ++ [maxNat ac + 1]).map fun x =>
      (if x = maxNat ac + 1 then 1 else ac.count x, HTree.leaf x)), s ∈ p.2.syms := by
    refine ⟨(if s = maxNat ac + 1 then 1 else ac.count s, HTree.leaf s), ?_, ?_⟩
    · exact (sortWL_perm _).symm.subset (List.mem_map_of_mem _ halpha)
    · simp [HTree.syms]
  have hsyms : s ∈ t.syms := combine_mem _ _ t hcomb s hwl
  rw [← leavesD_fst t 0] at hsyms
  obtain ⟨p, hp, rfl⟩ := List.mem_map.mp hsyms
  have hclamp : (p.1, max 1 p.2) ∈ (t.leavesD 0).map (fun q => (q.1, max 1 q.2)) :=
    List.mem_map_of_mem _ hp
  have hmem : (p.1, max 1 p.2) ∈ List.insertionSort canonLE
      ((t.leavesD 0).map fun q => (q.1, max 1 q.2)) :=
    (List.perm_insertionSort canonLE _).symm.subset hclamp
  exact List.mem_map.mpr ⟨_, hmem, rfl⟩

theorem zip_fst_snd {α β : Type} (l : List (α × β)) :
    List.zip (l.map Prod.fst) (l.map Prod.snd) = l := by
  induction l with
  | nil => rfl
  | cons p tl ih => simp [ih]

theorem from_rle_isSome (av : List ℤ) (ac : List ℕ) :
    ∃ h, HuffmanCoding.from_rle av ac = .ok h := by
  obtain ⟨pairs, hp⟩ := huffmanPairs_isSome ac
  unfold HuffmanCoding.from_rle
  rw [hp]
  exact ⟨_, rfl⟩

/-- Huffman layer round trip: decoding the stored coding recovers the AC
run-count sequence exactly, and the AC RLE values are stored verbatim. -/
theorem from_rle_decodeCounts (av : List ℤ) (ac : List ℕ) (h : HuffmanCoding)
    (hfr : HuffmanCoding.from_rle av ac = .ok h) :
    h.decodeCounts = .ok ac ∧ h.values = av ∧ h.eof_symbol = maxNat ac + 1 := by
  cases hp : huffmanPairs ac with
  | none =>
    rw [HuffmanCoding.from_rle, hp] at hfr
    cases hfr
  | some pairs =>
    rw [HuffmanCoding.from_rle, hp] at hfr
    injection hfr with hfr
    subst hfr
    refine ⟨?_, rfl, rfl⟩
    have hsort := huffmanPairs_sorted ac pairs hp
    have hk := huffmanPairs_kraft ac pairs hp
    have hpos := huffmanPairs_pos ac pairs hp
    have hpw := codesOf_pairwise_nonpre pairs hsort hk
    -- every needed symbol has a code of length ≥ 1
    have hlk : ∀ s, s ∈ ac ∨ s = maxNat ac + 1 →
        ∃ c, (codesOf pairs).lookup s = some c ∧ 1 ≤ c.length := by
      intro s hs
      have hkey : s ∈ (codesOf pairs).map Prod.fst := by
        rw [codesOf_keys]
        exact huffmanPairs_mem_syms ac pairs hp s hs
      obtain ⟨c, hc⟩ := lookup_isSome_of_mem_keys hkey
      refine ⟨c, hc, ?_⟩
      have hmem := mem_of_lookup_eq_some hc
      obtain ⟨l, c0, hpl, _, hlen⟩ := codesOf_mem_spec pairs hmem
      have := hpos _ hpl
      simp only at hlen
      omega
    obtain ⟨eofc, heofc, heofclen⟩ := hlk (maxNat ac + 1) (Or.inr rfl)
    unfold HuffmanCoding.decodeCounts
    simp only
    rw [zip_fst_snd]
    rw [heofc]
    simp only [Option.getD_some]
    obtain ⟨k, hk2⟩ := unpackBits_packBits (encodeSyms (codesOf pairs) ac ++ eofc)
    rw [hk2, List.append_assoc]
    have hfuel : ac.length <
        (encodeSyms (codesOf pairs) ac ++ (eofc ++ List.replicate k false)).length + 1 := by
      have h1 := encodeSyms_length_ge (codesOf pairs) ac
        (fun s hs => hlk s (Or.inl hs))
      simp only [List.length_append, List.length_replicate]
      omega
    have hrun := decodeLoop_correct (codesOf pairs) (maxNat ac + 1) eofc hpw heofc ac
      ((encodeSyms (codesOf pairs) ac ++ (eofc ++ List.replicate k false)).length + 1)
      (List.replicate k false)
      (fun s hs => by
        intro heq
        rw [heq] at hs
        exact maxNat_succ_not_mem ac hs)
      (fun s hs => (hlk s (Or.inl hs)).imp fun c hc => hc.1)
      hfuel
    rw [hrun]

/-! ## Theorems: quantization table and block streams -/

theorem ok_bind {α β : Type} (a : α) (f : α → Except String β) :
    (Except.ok a : Except String α) >>= f = f a := rfl

theorem get_quantization_table_ok (bs q : ℤ) (hbs : 1 ≤ bs) (hq1 : 1 ≤ q)
    (hq2 : q ≤ 100) :
    get_quantization_table (bs, bs, bs) q = .ok
      { b1 := bs.toNat, b2 := bs.toNat, b3 := bs.toNat,
        divisors := (rasterIdx bs.toNat bs.toNat bs.toNat).map fun p =>
          max 1 ((1 + p.1 + p.2.1 + p.2.2) * (100 - q.toNat) / 50) } := by
  unfold get_quantization_table
  rw [if_neg (by omega), if_neg (by dsimp only; omega)]

theorem blockElems_length (v : Vol) (q : QTable) (b : ℕ × ℕ × ℕ) :
    (blockElems v q b).length = q.b1 * q.b2 * q.b3 := by
  simp [blockElems, rasterIdx]

theorem blockList_length (q : QTable) (t1 t2 t3 : ℕ) :
    (blockList q t1 t2 t3).length
      = ceilDiv t1 q.b1 * ceilDiv t2 q.b2 * ceilDiv t3 q.b3 := by
  simp [blockList, rasterIdx]

theorem dcStreamOf_length (v : Vol) (q : QTable) :
    (dcStreamOf v q).length
      = ceilDiv v.s1 q.b1 * ceilDiv v.s2 q.b2 * ceilDiv v.s3 q.b3 := by
  simp [dcStreamOf, blockList, rasterIdx]

theorem acOf_length (q : QTable) (elems : List ℤ)
    (hd : q.divisors.length = q.b1 * q.b2 * q.b3)
    (he : elems.length = q.b1 * q.b2 * q.b3) :
    (acOf q elems).length = q.b1 * q.b2 * q.b3 - 1 := by
  simp [acOf, he, hd]

theorem acStreamOf_length (v : Vol) (q : QTable)
    (hd : q.divisors.length = q.b1 * q.b2 * q.b3) :
    (acStreamOf v q).length
      = (ceilDiv v.s1 q.b1 * ceilDiv v.s2 q.b2 * ceilDiv v.s3 q.b3)
          * (q.b1 * q.b2 * q.b3 - 1) := by
  unfold acStreamOf
  rw [List.length_flatten, List.map_map]
  have hconst : (blockList q v.s1 v.s2 v.s3).map
        (List.length ∘ fun b => acOf q (blockElems v q b))
      = (blockList q v.s1 v.s2 v.s3).map (fun _ => q.b1 * q.b2 * q.b3 - 1) := by
    apply List.map_congr_left
    intro b _
    simp only [Function.comp]
    exact acOf_length q _ hd (blockElems_length v q b)
  rw [hconst, List.map_const', List.sum_replicate, smul_eq_mul, blockList_length]

theorem encode_array_eq (array : Vol) (q : QTable) :
    encode_array array q
      = ((rleEncode (dcStreamOf array.normalize q)).map Prod.fst,
         (rleEncode (dcStreamOf array.normalize q)).map Prod.snd,
         (rleEncode (acStreamOf array.normalize q)).map Prod.fst,
         (rleEncode (acStreamOf array.normalize q)).map Prod.snd) := rfl

theorem normalize_shape (v : Vol) :
    v.normalize.s1 = v.s1 ∧ v.normalize.s2 = v.s2 ∧ v.normalize.s3 = v.s3
      ∧ v.normalize.dtype = v.dtype :=
  ⟨rfl, rfl, rfl, rfl⟩

theorem rleExpand_zip (s : List ℤ) :
    rleExpand (List.zip ((rleEncode s).map Prod.fst) ((rleEncode s).map Prod.snd))
      = s := by
  rw [zip_fst_snd, rleExpand_rleEncode]

/-- Success path of the decode facade: with matching stream lengths it
reconstructs a volume of exactly the target shape and dtype. -/
theorem decode_array_ok (dcv : List ℤ) (dcc : List ℕ) (q : QTable)
    (t1 t2 t3 : ℕ) (ic sl : ℤ) (dt : Dtype) (h : HuffmanCoding)
    (hb : ¬ (q.b1 = 0 ∨ q.b2 = 0 ∨ q.b3 = 0))
    (acc : List ℕ) (hdec : h.decodeCounts = .ok acc)
    (hdc : (rleExpand (List.zip dcv dcc)).length = (blockList q t1 t2 t3).length)
    (hac : (rleExpand (List.zip h.values acc)).length
        = (blockList q t1 t2 t3).length * (q.b1 * q.b2 * q.b3 - 1)) :
    decode_array dcv dcc q (t1, t2, t3) ic sl dt h
      = .ok { s1 := t1, s2 := t2, s3 := t3,
              data := (rasterIdx t1 t2 t3).map
                (reconAt q t2 t3 (rleExpand (List.zip dcv dcc))
                  (rleExpand (List.zip h.values acc)) ic sl),
              dtype := dt } := by
  unfold decode_array
  rw [if_neg hb, hdec]
  simp only
  rw [if_neg (by simp only [ne_eq, not_not]; exact hdc),
    if_neg (by simp only [ne_eq, not_not]; exact hac)]

/-! ## Theorems: the container round trip -/

/-- Master round trip: saving any nonempty volume whose axis lengths fit in
uint16 and re-opening the container succeeds, reproduces the shape, dtype
and the completed transform. -/
theorem roundtrip_master (v : Vol) (m : List (List ℚ)) (bs q : ℤ)
    (hbs : 1 ≤ bs) (hq1 : 1 ≤ q) (hq2 : q ≤ 100) (hdata : v.data ≠ [])
    (h1 : v.s1 < 65536) (h2 : v.s2 < 65536) (h3 : v.s3 < 65536) :
    ∃ d w, save_jvol_dict v m bs q = .ok d
      ∧ open_jvol d = .ok (w, fill_ijk_to_ras (m.take 3))
      ∧ w.s1 = v.s1 ∧ w.s2 = v.s2 ∧ w.s3 = v.s3 ∧ w.dtype = v.dtype := by
  have hqt := get_quantization_table_ok bs q hbs hq1 hq2
  set qt : QTable :=
    { b1 := bs.toNat, b2 := bs.toNat, b3 := bs.toNat,
      divisors := (rasterIdx bs.toNat bs.toNat bs.toNat).map fun p =>
        max 1 ((1 + p.1 + p.2.1 + p.2.2) * (100 - q.toNat) / 50) } with hqtdef
  obtain ⟨x, xs, hx⟩ := List.exists_cons_of_ne_nil hdata
  have hmin : v.minE = .ok (xs.foldl min x) := by
    unfold Vol.minE
    rw [hx]
  have hmax : v.maxE = .ok (xs.foldl max x) := by
    unfold Vol.maxE
    rw [hx]
  obtain ⟨hc, hfr⟩ := from_rle_isSome (encode_array v qt).2.2.1 (encode_array v qt).2.2.2
  obtain ⟨hdecC, hvals, heof⟩ :=
    from_rle_decodeCounts (encode_array v qt).2.2.1 (encode_array v qt).2.2.2 hc hfr
  have hsave : save_jvol_dict v m bs q
      = .ok (saveFields m qt (encode_array v qt).1 (encode_array v qt).2.1 v.dtype
          (xs.foldl min x) (xs.foldl max x - xs.foldl min x)
          (v.s1, v.s2, v.s3) hc) := by
    unfold save_jvol_dict
    simp only [hqt, hmin, hmax, hfr, ok_bind]
    rfl
  have hdivlen : qt.divisors.length = qt.b1 * qt.b2 * qt.b3 := by
    rw [hqtdef]
    simp [rasterIdx]
  have hbpos : ¬ (qt.b1 = 0 ∨ qt.b2 = 0 ∨ qt.b3 = 0) := by
    rw [hqtdef]
    simp only
    omega
  have hdc : (rleExpand (List.zip (encode_array v qt).1 (encode_array v qt).2.1)).length
      = (blockList qt v.s1 v.s2 v.s3).length := by
    rw [encode_array_eq]
    simp only
    rw [rleExpand_zip, dcStreamOf_length, blockList_length]
    rfl
  have hac : (rleExpand (List.zip hc.values (encode_array v qt).2.2.2)).length
      = (blockList qt v.s1 v.s2 v.s3).length * (qt.b1 * qt.b2 * qt.b3 - 1) := by
    rw [hvals, encode_array_eq]
    simp only
    rw [rleExpand_zip, acStreamOf_length _ _ hdivlen, blockList_length]
    rfl
  have hdeco := decode_array_ok (encode_array v qt).1 (encode_array v qt).2.1 qt
    v.s1 v.s2 v.s3 (xs.foldl min x) (xs.foldl max x - xs.foldl min x) v.dtype hc
    hbpos (encode_array v qt).2.2.2 hdecC hdc hac
  have hmod1 : v.s1 % 65536 = v.s1 := Nat.mod_eq_of_lt h1
  have hmod2 : v.s2 % 65536 = v.s2 := Nat.mod_eq_of_lt h2
  have hmod3 : v.s3 % 65536 = v.s3 := Nat.mod_eq_of_lt h3
  have hopen : open_jvol (saveFields m qt (encode_array v qt).1 (encode_array v qt).2.1
        v.dtype (xs.foldl min x) (xs.foldl max x - xs.foldl min x)
        (v.s1, v.s2, v.s3) hc)
      = (decode_array (encode_array v qt).1 (encode_array v qt).2.1 qt
          (v.s1 % 65536, v.s2 % 65536, v.s3 % 65536) (xs.foldl min x)
          (xs.foldl max x - xs.foldl min x) v.dtype hc) >>=
        fun array => .ok (array, fill_ijk_to_ras (m.take 3)) := rfl
  refine ⟨_, (⟨v.s1, v.s2, v.s3,
      (rasterIdx v.s1 v.s2 v.s3).map
        (reconAt qt v.s2 v.s3
          (rleExpand (List.zip (encode_array v qt).1 (encode_array v qt).2.1))
          (rleExpand (List.zip hc.values (encode_array v qt).2.2.2))
          (xs.foldl min x) (xs.foldl max x - xs.foldl min x)),
      v.dtype⟩ : Vol), hsave, ?_, rfl, rfl, rfl, rfl⟩
  rw [hopen, hmod1, hmod2, hmod3, hdeco, ok_bind]

/-! ## Theorems: shared helpers about the save/open pair -/

theorem err_bind {α β : Type} (e : String) (f : α → Except String β) :
    (Except.error e : Except String α) >>= f = .error e := rfl

theorem pure_ok {α : Type} (a : α) : (pure a : Except String α) = .ok a := rfl

/-- Opening the dictionary `save_jvol` assembles reduces to running the
decode facade on the stored fields: every field is read back under exactly
the key it was written under, the Huffman coding is reconstructed whole, and
the transform is completed with the fixed last row. -/
theorem open_jvol_saveFields (m : List (List ℚ)) (qt : QTable) (dcv : List ℤ)
    (dcc : List ℕ) (dt : Dtype) (ic sl : ℤ) (sh : ℕ × ℕ × ℕ) (hc : HuffmanCoding) :
    open_jvol (saveFields m qt dcv dcc dt ic sl sh hc)
      = (decode_array dcv dcc qt (sh.1 % 65536, sh.2.1 % 65536, sh.2.2 % 65536)
          ic sl dt hc) >>=
        fun array => .ok (array, fill_ijk_to_ras (m.take 3)) := rfl

/-- `save_jvol_dict` succeeds on valid parameters and a nonempty array, with
the dictionary fully determined by the encode pipeline. -/
theorem save_jvol_dict_ok (v : Vol) (m : List (List ℚ)) (bs q : ℤ) (x : ℤ)
    (xs : List ℤ) (hbs : 1 ≤ bs) (hq1 : 1 ≤ q) (hq2 : q ≤ 100)
    (hx : v.data = x :: xs) :
    ∃ hc, HuffmanCoding.from_rle (encode_array v (qtOf bs q)).2.2.1
        (encode_array v (qtOf bs q)).2.2.2 = .ok hc
      ∧ save_jvol_dict v m bs q
        = .ok (saveFields m (qtOf bs q) (encode_array v (qtOf bs q)).1
            (encode_array v (qtOf bs q)).2.1 v.dtype (xs.foldl min x)
            (xs.foldl max x - xs.foldl min x) (v.s1, v.s2, v.s3) hc) := by
  have hqt : get_quantization_table (bs, bs, bs) q = .ok (qtOf bs q) :=
    get_quantization_table_ok bs q hbs hq1 hq2
  have hmin : v.minE = .ok (xs.foldl min x) := by
    unfold Vol.minE
    rw [hx]
  have hmax : v.maxE = .ok (xs.foldl max x) := by
    unfold Vol.maxE
    rw [hx]
  obtain ⟨hc, hfr⟩ := from_rle_isSome (encode_array v (qtOf bs q)).2.2.1
    (encode_array v (qtOf bs q)).2.2.2
  refine ⟨hc, hfr, ?_⟩
  unfold save_jvol_dict
  simp only [hqt, hmin, hmax, hfr, ok_bind]
  rfl

/-- Any successful `save_jvol_dict` produced its dictionary through the
pipeline: the quantization stage succeeded, the array was nonempty, and the
dictionary is exactly the assembled field list. -/
theorem save_jvol_dict_shape (v : Vol) (m : List (List ℚ)) (bs q : ℤ)
    (d : List (String × Value)) (hsave : save_jvol_dict v m bs q = .ok d) :
    ∃ qt x xs hc, get_quantization_table (bs, bs, bs) q = .ok qt
      ∧ v.data = x :: xs
      ∧ d = saveFields m qt (encode_array v qt).1 (encode_array v qt).2.1 v.dtype
          (xs.foldl min x) (xs.foldl max x - xs.foldl min x)
          (v.s1, v.s2, v.s3) hc := by
  simp only [save_jvol_dict] at hsave
  cases hqt : get_quantization_table (bs, bs, bs) q with
  | error e =>
    rw [hqt, err_bind] at hsave
    cases hsave
  | ok qt =>
    rw [hqt, ok_bind] at hsave
    cases hx : v.data with
    | nil =>
      have hminerr : v.minE = .error "zero-size array to reduction operation minimum" := by
        unfold Vol.minE
        rw [hx]
      simp only [hminerr, err_bind] at hsave
      cases hsave
    | cons x xs =>
      have hmin : v.minE = .ok (xs.foldl min x) := by
        unfold Vol.minE
        rw [hx]
      have hmax : v.maxE = .ok (xs.foldl max x) := by
        unfold Vol.maxE
        rw [hx]
      simp only [hmin, hmax, ok_bind] at hsave
      cases hfr : HuffmanCoding.from_rle (encode_array v qt).2.2.1
          (encode_array v qt).2.2.2 with
      | error e =>
        simp only [hfr, err_bind] at hsave
        cases hsave
      | ok hc =>
        simp only [hfr, ok_bind, pure_ok] at hsave
        refine ⟨qt, x, xs, hc, rfl, rfl, ?_⟩
        injection hsave with h
        exact h.symm

/-- Failure path of the decode facade: a DC stream whose length does not
match the block count is rejected. -/
theorem decode_array_err_dc (dcv : List ℤ) (dcc : List ℕ) (q : QTable)
    (t1 t2 t3 : ℕ) (ic sl : ℤ) (dt : Dtype) (h : HuffmanCoding)
    (hb : ¬ (q.b1 = 0 ∨ q.b2 = 0 ∨ q.b3 = 0))
    (acc : List ℕ) (hdec : h.decodeCounts = .ok acc)
    (hdc : (rleExpand (List.zip dcv dcc)).length ≠ (blockList q t1 t2 t3).length) :
    decode_array dcv dcc q (t1, t2, t3) ic sl dt h
      = .error "dc stream length mismatch" := by
  unfold decode_array
  rw [if_neg hb, hdec]
  simp only
  rw [if_pos hdc]

/-! ## Theorems: list minimum/maximum via foldl -/

theorem foldl_min_le_init (x : ℤ) (xs : List ℤ) : xs.foldl min x ≤ x := by
  induction xs generalizing x with
  | nil => simp
  | cons z zs ih => exact le_trans (ih (min x z)) (min_le_left x z)

theorem foldl_min_mem (x : ℤ) (xs : List ℤ) : xs.foldl min x ∈ x :: xs := by
  induction xs generalizing x with
  | nil => simp
  | cons z zs ih =>
    rw [List.foldl_cons]
    rcases List.mem_cons.mp (ih (min x z)) with heq | hmem
    · rw [heq]
      rcases le_total x z with hxz | hxz
      · rw [min_eq_left hxz]
        exact List.mem_cons_self _ _
      · rw [min_eq_right hxz]
        exact List.mem_cons_of_mem _ (List.mem_cons_self _ _)
    · exact List.mem_cons_of_mem _ (List.mem_cons_of_mem _ hmem)

theorem foldl_min_le (xs : List ℤ) :
    ∀ (x y : ℤ), y ∈ x :: xs → xs.foldl min x ≤ y := by
  induction xs with
  | nil =>
    intro x y hy
    simp at hy
    simp [hy]
  | cons z zs ih =>
    intro x y hy
    rw [List.foldl_cons]
    rcases List.mem_cons.mp hy with heq | hy'
    · rw [heq]
      exact le_trans (foldl_min_le_init (min x z) zs) (min_le_left x z)
    · rcases List.mem_cons.mp hy' with heq | hy''
      · rw [heq]
        exact le_trans (foldl_min_le_init (min x z) zs) (min_le_right x z)
      · exact ih (min x z) y (List.mem_cons_of_mem _ hy'')

theorem foldl_max_ge_init (x : ℤ) (xs : List ℤ) : x ≤ xs.foldl max x := by
  induction xs generalizing x with
  | nil => simp
  | cons z zs ih => exact le_trans (le_max_left x z) (ih (max x z))

theorem foldl_max_mem (x : ℤ) (xs : List ℤ) : xs.foldl max x ∈ x :: xs := by
  induction xs generalizing x with
  | nil => simp
  | cons z zs ih =>
    rw [List.foldl_cons]
    rcases List.mem_cons.mp (ih (max x z)) with heq | hmem
    · rw [heq]
      rcases le_total x z with hxz | hxz
      · rw [max_eq_right hxz]
        exact List.mem_cons_of_mem _ (List.mem_cons_self _ _)
      · rw [max_eq_left hxz]
        exact List.mem_cons_self _ _
    · exact List.mem_cons_of_mem _ (List.mem_cons_of_mem _ hmem)

theorem foldl_max_ge (xs : List ℤ) :
    ∀ (x y : ℤ), y ∈ x :: xs → y ≤ xs.foldl max x := by
  induction xs with
  | nil =>
    intro x y hy
    simp at hy
    simp [hy]
  | cons z zs ih =>
    intro x y hy
    rw [List.foldl_cons]
    rcases List.mem_cons.mp hy with heq | hy'
    · rw [heq]
      exact le_trans (le_max_left x z) (foldl_max_ge_init (max x z) zs)
    · rcases List.mem_cons.mp hy' with heq | hy''
      · rw [heq]
        exact le_trans (le_max_right x z) (foldl_max_ge_init (max x z) zs)
      · exact ih (max x z) y (List.mem_cons_of_mem _ hy'')

/-! ## Claim C1 -/

/-- C1 (amended): for every nonempty 3-D array whose axis lengths are below
`2 ^ 16` and every transform, saving via `save_jvol` and re-opening via
`open_jvol` succeeds and returns an array whose shape and dtype exactly
equal the original's — including shapes not divisible by the block size. -/
theorem C1_roundtrip_shape_dtype (v : Vol) (m : List (List ℚ)) (bs q : ℤ)
    (hbs : 1 ≤ bs) (hq1 : 1 ≤ q) (hq2 : q ≤ 100) (hdata : v.data ≠ [])
    (h1 : v.s1 < 65536) (h2 : v.s2 < 65536) (h3 : v.s3 < 65536) :
    ∃ d w, save_jvol_dict v m bs q = .ok d
      ∧ open_jvol d = .ok (w, fill_ijk_to_ras (m.take 3))
      ∧ w.s1 = v.s1 ∧ w.s2 = v.s2 ∧ w.s3 = v.s3 ∧ w.dtype = v.dtype :=
  roundtrip_master v m bs q hbs hq1 hq2 hdata h1 h2 h3

/-- C1 witness: concrete 3×2×2 int16 volume, block size 2 (3 is not
divisible by 2), quality 60. -/
theorem C1_witness :
    ((1 : ℤ) ≤ 2 ∧ (1 : ℤ) ≤ 60 ∧ (60 : ℤ) ≤ 100 ∧ exVol.data ≠ []
      ∧ exVol.s1 < 65536 ∧ exVol.s2 < 65536 ∧ exVol.s3 < 65536)
    ∧ ∃ d w, save_jvol_dict exVol exMat 2 60 = .ok d
      ∧ open_jvol d = .ok (w, fill_ijk_to_ras (exMat.take 3))
      ∧ w.s1 = exVol.s1 ∧ w.s2 = exVol.s2 ∧ w.s3 = exVol.s3
      ∧ w.dtype = exVol.dtype :=
  ⟨by decide,
   C1_roundtrip_shape_dtype exVol exMat 2 60 (by decide) (by decide) (by decide)
     (by decide) (by decide) (by decide) (by decide)⟩

/-- C1 counterexample: the claim quantifies over every 3-D array, but (a) on
the empty array `save_jvol` raises (numpy reduction on a zero-size array),
so no array is returned at all, and (b) on an array with an axis of length
`2 ^ 16` the shape field wraps to 0, the stored stream lengths no longer
match the reconstruction target, and re-opening fails. -/
theorem C1_counterexample :
    (save_jvol_dict exVolEmpty exMat 4 60).toOption = none
    ∧ ∃ e, (save_jvol_dict exVolBig exMat 4 60 >>= open_jvol) = .error e := by
  constructor
  · rfl
  · obtain ⟨hc, hfr, hsave⟩ := save_jvol_dict_ok exVolBig exMat 4 60 0
      (List.replicate 65535 0) (by decide) (by decide) (by decide) rfl
    obtain ⟨hdecC, hvals, _⟩ := from_rle_decodeCounts _ _ hc hfr
    rw [hsave, ok_bind, open_jvol_saveFields]
    have hs1 : exVolBig.s1 % 65536 = 0 := by decide
    have hs2 : exVolBig.s2 % 65536 = 1 := by decide
    have hs3 : exVolBig.s3 % 65536 = 1 := by decide
    rw [hs1, hs2, hs3]
    have hqtb : ¬ ((qtOf 4 60).b1 = 0 ∨ (qtOf 4 60).b2 = 0 ∨ (qtOf 4 60).b3 = 0) := by
      decide
    have hdc : (rleExpand (List.zip (encode_array exVolBig (qtOf 4 60)).1
          (encode_array exVolBig (qtOf 4 60)).2.1)).length
        ≠ (blockList (qtOf 4 60) 0 1 1).length := by
      rw [encode_array_eq]
      simp only
      rw [rleExpand_zip, dcStreamOf_length, blockList_length]
      have hn1 : exVolBig.normalize.s1 = 65536 := rfl
      have hn2 : exVolBig.normalize.s2 = 1 := rfl
      have hn3 : exVolBig.normalize.s3 = 1 := rfl
      rw [hn1, hn2, hn3]
      decide
    rw [decode_array_err_dc _ _ _ _ _ _ _ _ _ _ hqtb _ hdecC hdc, err_bind]
    exact ⟨_, rfl⟩

/-! ## Claim C2 -/

/-- C2 (amended): `save_jvol` stores the Huffman sentinel, canonical
symbols, per-length counts, bitsizes, AC values and packed payload under the
literal keys `huffman_eof_symbol`, `huffman_symbols_values`,
`huffman_symbols_counts`, `huffman_bitsizes`, `huffman_values`,
`huffman_data` — none of the `FormatKeys.AC_HUFFMAN_*` names of the
container-format table appear in the file — and `open_jvol` reads the
coding back under exactly those same keys. -/
theorem C2_huffman_field_names (m : List (List ℚ)) (qt : QTable) (dcv : List ℤ)
    (dcc : List ℕ) (dt : Dtype) (ic sl : ℤ) (sh : ℕ × ℕ × ℕ) (hc : HuffmanCoding) :
    ((saveFields m qt dcv dcc dt ic sl sh hc).lookup "huffman_eof_symbol"
        = some (.nscalar hc.eof_symbol)
      ∧ (saveFields m qt dcv dcc dt ic sl sh hc).lookup "huffman_symbols_values"
        = some (.narr .int64 hc.symbols_values)
      ∧ (saveFields m qt dcv dcc dt ic sl sh hc).lookup "huffman_symbols_counts"
        = some (.narr .int64 hc.symbols_counts)
      ∧ (saveFields m qt dcv dcc dt ic sl sh hc).lookup "huffman_bitsizes"
        = some (.narr .int64 hc.bitsizes)
      ∧ (saveFields m qt dcv dcc dt ic sl sh hc).lookup "huffman_values"
        = some (.iarr .int64 hc.values)
      ∧ (saveFields m qt dcv dcc dt ic sl sh hc).lookup "huffman_data"
        = some (.narr .uint8 hc.data))
    ∧ ((saveFields m qt dcv dcc dt ic sl sh hc).lookup FormatKeys.AC_HUFFMAN_EOF_SYMBOL
        = none
      ∧ (saveFields m qt dcv dcc dt ic sl sh hc).lookup FormatKeys.AC_HUFFMAN_SYMBOLS
        = none
      ∧ (saveFields m qt dcv dcc dt ic sl sh hc).lookup FormatKeys.AC_HUFFMAN_BITS
        = none
      ∧ (saveFields m qt dcv dcc dt ic sl sh hc).lookup FormatKeys.AC_HUFFMAN_VALUES
        = none
      ∧ (saveFields m qt dcv dcc dt ic sl sh hc).lookup FormatKeys.AC_HUFFMAN_ENCODING
        = none)
    ∧ open_jvol (saveFields m qt dcv dcc dt ic sl sh hc)
        = (decode_array dcv dcc qt (sh.1 % 65536, sh.2.1 % 65536, sh.2.2 % 65536)
            ic sl dt hc) >>=
          fun array => .ok (array, fill_ijk_to_ras (m.take 3)) :=
  ⟨⟨rfl, rfl, rfl, rfl, rfl, rfl⟩, ⟨rfl, rfl, rfl, rfl, rfl⟩, rfl⟩

/-- C2 counterexample: on a concrete save, none of the `ac_huffman_*` field
names of the claim is present; the sentinel sits under `huffman_eof_symbol`. -/
theorem C2_counterexample :
    (save_jvol_dict exVol1 exMat 1 60).toOption.bind
        (fun d => d.lookup FormatKeys.AC_HUFFMAN_EOF_SYMBOL) = none
    ∧ (save_jvol_dict exVol1 exMat 1 60).toOption.bind
        (fun d => d.lookup "huffman_eof_symbol") = some (.nscalar 1) :=
  ⟨rfl, rfl⟩

/-! ## Claim C3 -/

/-- C3 (amended): at serialization time `save_jvol` narrows the DC RLE
values array to its minimal scalar type (values unchanged), but stores the
DC RLE counts array at the default int64 width, without narrowing. -/
theorem C3_min_width (m : List (List ℚ)) (qt : QTable) (dcv : List ℤ)
    (dcc : List ℕ) (dt : Dtype) (ic sl : ℤ) (sh : ℕ × ℕ × ℕ) (hc : HuffmanCoding) :
    (saveFields m qt dcv dcc dt ic sl sh hc).lookup FormatKeys.DC_RLE_VALUES
        = some (.iarr (min_scalar_type_int dcv) dcv)
    ∧ (saveFields m qt dcv dcc dt ic sl sh hc).lookup FormatKeys.DC_RLE_COUNTS
        = some (.narr .int64 dcc)
    ∧ to_min_scalar_type dcv = (min_scalar_type_int dcv, dcv) :=
  ⟨rfl, rfl, rfl⟩

/-- C3 counterexample: on a concrete save the counts array is stored as
int64 although uint8 would losslessly represent its range. -/
theorem C3_counterexample :
    (save_jvol_dict exVol1 exMat 1 60).toOption.bind
        (fun d => d.lookup FormatKeys.DC_RLE_COUNTS) = some (.narr .int64 [1])
    ∧ min_scalar_type_nat [1] = .uint8
    ∧ Dtype.int64 ≠ Dtype.uint8 :=
  ⟨rfl, rfl, by decide⟩

/-! ## Claim C4 -/

/-- C4: a quality outside `[1, 100]` or a non-positive block size makes
`save_jvol` fail before anything is written (no silent clamping), and in
general a file appears at the target path only when the entire encoded
dictionary was produced — the output file is opened after all encoding
stages have completed. -/
theorem C4_fail_fast {α : Type} (fs : FS α) (path : JPath) (v : Vol)
    (m : List (List ℚ)) (bs q : ℤ) :
    ((q < 1 ∨ 100 < q ∨ bs ≤ 0) → ∃ e, save_jvol fs path v m bs q = .error e)
    ∧ (∀ fs', save_jvol fs path v m bs q = .ok fs' →
        ∃ d, save_jvol_dict v m bs q = .ok d ∧ fs' = fsWrite fs path (.jvol d)) := by
  constructor
  · intro hbad
    have hq : ∃ e, get_quantization_table (bs, bs, bs) q = .error e := by
      unfold get_quantization_table
      by_cases hq' : q < 1 ∨ 100 < q
      · rw [if_pos hq']
        exact ⟨_, rfl⟩
      · rw [if_neg hq', if_pos (by dsimp only; omega)]
        exact ⟨_, rfl⟩
    obtain ⟨e, he⟩ := hq
    refine ⟨e, ?_⟩
    unfold save_jvol
    simp only [save_jvol_dict, he, err_bind]
  · intro fs' hok
    cases hd : save_jvol_dict v m bs q with
    | error e =>
      unfold save_jvol at hok
      rw [hd, err_bind] at hok
      cases hok
    | ok d =>
      unfold save_jvol at hok
      rw [hd, ok_bind] at hok
      injection hok with hok
      exact ⟨d, rfl, hok.symm⟩

/-- C4 witness: block_size 0 with a valid quality fails. -/
theorem C4_witness :
    ((60 : ℤ) < 1 ∨ (100 : ℤ) < 60 ∨ (0 : ℤ) ≤ 0)
    ∧ ∃ e, save_jvol ([] : FS Unit) ⟨"f", ".jvol"⟩ exVol1 exMat 0 60 = .error e :=
  ⟨by decide,
   (C4_fail_fast ([] : FS Unit) ⟨"f", ".jvol"⟩ exVol1 exMat 0 60).1 (by decide)⟩

/-! ## Claim C5 -/

theorem take3_concat_getLast (T : List (List ℚ)) (hT : T.length = 4)
    (hlast : T.getLast? = some [0, 0, 0, 1]) :
    T.take 3 ++ [[(0 : ℚ), 0, 0, 1]] = T := by
  match T, hT with
  | [r1, r2, r3, r4], _ =>
    have h4 : [r1, r2, r3, r4].getLast? = some r4 := rfl
    rw [h4] at hlast
    injection hlast with h
    simp [List.take, h]

/-- C5: `fill_ijk_to_ras` appends the fixed last row `[0,0,0,1]` to a 3×4
matrix, leaving the first three rows untouched; consequently, a 4×4
transform whose last row is `[0,0,0,1]` is restored exactly by the
save/open round trip. -/
theorem C5_transform_roundtrip (T : List (List ℚ)) (v : Vol) (bs q : ℤ)
    (hT : T.length = 4) (hlast : T.getLast? = some [0, 0, 0, 1])
    (hbs : 1 ≤ bs) (hq1 : 1 ≤ q) (hq2 : q ≤ 100) (hdata : v.data ≠ [])
    (h1 : v.s1 < 65536) (h2 : v.s2 < 65536) (h3 : v.s3 < 65536) :
    (∀ M : List (List ℚ), M.length = 3 →
      fill_ijk_to_ras M = M ++ [[0, 0, 0, 1]]
      ∧ (fill_ijk_to_ras M).take 3 = M
      ∧ (fill_ijk_to_ras M).length = 4
      ∧ (fill_ijk_to_ras M).getLast? = some [0, 0, 0, 1])
    ∧ ∃ d w, save_jvol_dict v T bs q = .ok d ∧ open_jvol d = .ok (w, T) := by
  constructor
  · intro M hM
    refine ⟨rfl, ?_, ?_, ?_⟩
    · rw [fill_ijk_to_ras, ← hM, List.take_left]
    · simp [fill_ijk_to_ras, hM]
    · simp [fill_ijk_to_ras]
  · obtain ⟨d, w, hsave, hopen, _⟩ :=
      roundtrip_master v T bs q hbs hq1 hq2 hdata h1 h2 h3
    refine ⟨d, w, hsave, ?_⟩
    rw [hopen, fill_ijk_to_ras, take3_concat_getLast T hT hlast]

/-- C5 witness: the identity transform and the concrete 3×2×2 volume. -/
theorem C5_witness :
    (exMat.length = 4 ∧ exMat.getLast? = some [0, 0, 0, 1] ∧ (1 : ℤ) ≤ 2
      ∧ (1 : ℤ) ≤ 60 ∧ (60 : ℤ) ≤ 100 ∧ exVol.data ≠ []
      ∧ exVol.s1 < 65536 ∧ exVol.s2 < 65536 ∧ exVol.s3 < 65536)
    ∧ ((∀ M : List (List ℚ), M.length = 3 →
        fill_ijk_to_ras M = M ++ [[0, 0, 0, 1]]
        ∧ (fill_ijk_to_ras M).take 3 = M
        ∧ (fill_ijk_to_ras M).length = 4
        ∧ (fill_ijk_to_ras M).getLast? = some [0, 0, 0, 1])
      ∧ ∃ d w, save_jvol_dict exVol exMat 2 60 = .ok d
          ∧ open_jvol d = .ok (w, exMat)) :=
  ⟨⟨by decide, by decide, by decide, by decide, by decide, by decide,
    by decide, by decide, by decide⟩,
   C5_transform_roundtrip exMat exVol 2 60 (by decide) (by decide) (by decide)
     (by decide) (by decide) (by decide) (by decide) (by decide) (by decide)⟩

/-! ## Claim C6 -/

/-- C6: `open_image` and `save_image` dispatch purely on the path suffix:
the native extension goes to `open_jvol`/`save_jvol` (kwargs forwarded),
anything else to the generic ITK reader/writer. -/
theorem C6_dispatch {α : Type} (itkRead : α → Except String (Vol × List (List ℚ)))
    (itkWrite : Vol → List (List ℚ) → α) (fs : FS α) (path : JPath)
    (array : Vol) (m : List (List ℚ)) (kwargs : Kwargs) :
    (path.suffix = ".jvol" →
      open_image itkRead fs path = open_jvol_path fs path
      ∧ (kwargs.all (fun kv => kv.1 == "block_size" || kv.1 == "quality") = true →
        save_image itkWrite fs array m path kwargs
          = save_jvol fs path array m ((kwargs.lookup "block_size").getD 4)
              ((kwargs.lookup "quality").getD 60)))
    ∧ (path.suffix ≠ ".jvol" →
      open_image itkRead fs path = open_itk_image itkRead fs path
      ∧ save_image itkWrite fs array m path kwargs
          = .ok (save_itk_image itkWrite fs path array m)) := by
  constructor
  · intro hsuf
    constructor
    · unfold open_image
      rw [if_pos hsuf]
    · intro hk
      unfold save_image
      rw [if_pos hsuf, if_pos hk]
  · intro hsuf
    constructor
    · unfold open_image
      rw [if_neg hsuf]
    · unfold save_image
      rw [if_neg hsuf]

/-- C6 witness: a `.jvol` path dispatches to the native reader, a `.nii`
path to the ITK reader. -/
theorem C6_witness :
    ((JPath.mk "f" ".jvol").suffix = ".jvol"
      ∧ open_image (fun _ : Unit => Except.error "x") ([] : FS Unit) ⟨"f", ".jvol"⟩
          = open_jvol_path ([] : FS Unit) ⟨"f", ".jvol"⟩)
    ∧ ((JPath.mk "f" ".nii").suffix ≠ ".jvol"
      ∧ open_image (fun _ : Unit => Except.error "x") ([] : FS Unit) ⟨"f", ".nii"⟩
          = open_itk_image (fun _ : Unit => Except.error "x") ([] : FS Unit)
              ⟨"f", ".nii"⟩) :=
  ⟨⟨rfl,
    ((C6_dispatch (fun _ : Unit => Except.error "x") (fun _ _ => ()) [] ⟨"f", ".jvol"⟩
      exVol1 exMat []).1 rfl).1⟩,
   ⟨by decide,
    ((C6_dispatch (fun _ : Unit => Except.error "x") (fun _ _ => ()) [] ⟨"f", ".nii"⟩
      exVol1 exMat []).2 (by decide)).1⟩⟩

/-! ## Claim C7 -/

/-- C7: on every successful save the stored intercept is the minimum element
of the array and the stored slope is the maximum minus the minimum, captured
from the unmodified input array (the model is pure, so nothing the encode
stages do can change them). -/
theorem C7_rescale_params (v : Vol) (m : List (List ℚ)) (bs q : ℤ)
    (d : List (String × Value)) (hsave : save_jvol_dict v m bs q = .ok d) :
    ∃ mn mx, v.minE = .ok mn ∧ v.maxE = .ok mx
      ∧ mn ∈ v.data ∧ mx ∈ v.data
      ∧ (∀ y ∈ v.data, mn ≤ y) ∧ (∀ y ∈ v.data, y ≤ mx)
      ∧ d.lookup FormatKeys.INTERCEPT = some (.iscalar mn)
      ∧ d.lookup FormatKeys.SLOPE = some (.iscalar (mx - mn)) := by
  obtain ⟨qt, x, xs, hc, hqt, hx, hd⟩ := save_jvol_dict_shape v m bs q d hsave
  refine ⟨xs.foldl min x, xs.foldl max x, ?_, ?_, ?_, ?_, ?_, ?_, ?_, ?_⟩
  · unfold Vol.minE
    rw [hx]
  · unfold Vol.maxE
    rw [hx]
  · rw [hx]
    exact foldl_min_mem x xs
  · rw [hx]
    exact foldl_max_mem x xs
  · rw [hx]
    exact fun y hy => foldl_min_le xs x y hy
  · rw [hx]
    exact fun y hy => foldl_max_ge xs x y hy
  · rw [hd]
    rfl
  · rw [hd]
    rfl

/-- C7 witness: the single-voxel volume. -/
theorem C7_witness :
    ∃ mn mx, exVol1.minE = .ok mn ∧ exVol1.maxE = .ok mx
      ∧ mn ∈ exVol1.data ∧ mx ∈ exVol1.data
      ∧ (∀ y ∈ exVol1.data, mn ≤ y) ∧ (∀ y ∈ exVol1.data, y ≤ mx)
      ∧ ((save_jvol_dict exVol1 exMat 1 60).toOption.getD []).lookup
          FormatKeys.INTERCEPT = some (.iscalar mn)
      ∧ ((save_jvol_dict exVol1 exMat 1 60).toOption.getD []).lookup
          FormatKeys.SLOPE = some (.iscalar (mx - mn)) :=
  C7_rescale_params exVol1 exMat 1 60
    ((save_jvol_dict exVol1 exMat 1 60).toOption.getD []) rfl

/-! ## Claim C8 -/

theorem get_quantization_table_dims (bsh : ℤ × ℤ × ℤ) (q : ℤ) (t : QTable)
    (h : get_quantization_table bsh q = .ok t) :
    t.b1 = bsh.1.toNat ∧ t.b2 = bsh.2.1.toNat ∧ t.b3 = bsh.2.2.toNat := by
  unfold get_quantization_table at h
  split at h
  · cases h
  · split at h
    · cases h
    · injection h with h
      rw [← h]
      exact ⟨rfl, rfl, rfl⟩

/-- C8: the save entry point's tunable compression parameters are
`block_size` and `quality` with defaults 4 and 60, and the stored
quantization table is derived from the cubic block shape
`(block_size, block_size, block_size)`. -/
theorem C8_entry_point_params (v : Vol) (m : List (List ℚ)) (bs q : ℤ)
    (d : List (String × Value)) (hsave : save_jvol_dict v m bs q = .ok d) :
    save_jvol_dict v m = save_jvol_dict v m 4 60
    ∧ ∃ qt, get_quantization_table (bs, bs, bs) q = .ok qt
        ∧ d.lookup FormatKeys.QUANTIZATION_BLOCK = some (.qt qt)
        ∧ qt.b1 = bs.toNat ∧ qt.b2 = bs.toNat ∧ qt.b3 = bs.toNat := by
  obtain ⟨qt, x, xs, hc, hqt, hx, hd⟩ := save_jvol_dict_shape v m bs q d hsave
  obtain ⟨e1, e2, e3⟩ := get_quantization_table_dims (bs, bs, bs) q qt hqt
  refine ⟨rfl, qt, hqt, ?_, e1, e2, e3⟩
  rw [hd]
  rfl

/-- C8 witness: the single-voxel save at block size 1, quality 60. -/
theorem C8_witness :
    save_jvol_dict exVol1 exMat = save_jvol_dict exVol1 exMat 4 60
    ∧ ∃ qt, get_quantization_table (1, 1, 1) 60 = .ok qt
        ∧ ((save_jvol_dict exVol1 exMat 1 60).toOption.getD []).lookup
            FormatKeys.QUANTIZATION_BLOCK = some (.qt qt)
        ∧ qt.b1 = (1 : ℤ).toNat ∧ qt.b2 = (1 : ℤ).toNat ∧ qt.b3 = (1 : ℤ).toNat :=
  C8_entry_point_params exVol1 exMat 1 60
    ((save_jvol_dict exVol1 exMat 1 60).toOption.getD []) rfl

/-! ## Claim C9 -/

/-- C9: for a non-native suffix, `save_image` ignores the keyword arguments
entirely: the result is the same ITK write for every kwargs, and no error is
raised for unused tuning parameters. -/
theorem C9_kwargs_dropped {α : Type} (itkWrite : Vol → List (List ℚ) → α)
    (fs : FS α) (array : Vol) (m : List (List ℚ)) (path : JPath)
    (hsuf : path.suffix ≠ ".jvol") (k1 k2 : Kwargs) :
    save_image itkWrite fs array m path k1 = save_image itkWrite fs array m path k2
    ∧ save_image itkWrite fs array m path k1
        = .ok (save_itk_image itkWrite fs path array m) := by
  unfold save_image
  simp [if_neg hsuf]

/-- C9 witness: a `.nii` path with kwargs present vs absent. -/
theorem C9_witness :
    (JPath.mk "f" ".nii").suffix ≠ ".jvol"
    ∧ (save_image (fun _ _ => ()) ([] : FS Unit) exVol1 exMat ⟨"f", ".nii"⟩
          [("block_size", 2), ("quality", 10)]
        = save_image (fun _ _ => ()) ([] : FS Unit) exVol1 exMat ⟨"f", ".nii"⟩ []
      ∧ save_image (fun _ _ => ()) ([] : FS Unit) exVol1 exMat ⟨"f", ".nii"⟩
          [("block_size", 2), ("quality", 10)]
        = .ok (save_itk_image (fun _ _ => ()) ([] : FS Unit) ⟨"f", ".nii"⟩
            exVol1 exMat)) :=
  ⟨by decide,
   C9_kwargs_dropped (fun _ _ => ()) ([] : FS Unit) exVol1 exMat ⟨"f", ".nii"⟩
     (by decide) [("block_size", 2), ("quality", 10)] []⟩

/-! ## Claim C10 -/

/-- C10: the shape field is cast to uint16 before storage — each axis is
stored reduced modulo `2 ^ 16` — so it equals the true shape exactly when
every axis length is below 65536. -/
theorem C10_shape_uint16 (v : Vol) (m : List (List ℚ)) (bs q : ℤ)
    (d : List (String × Value)) (hsave : save_jvol_dict v m bs q = .ok d) :
    d.lookup FormatKeys.SHAPE
        = some (.narr .uint16 [v.s1 % 65536, v.s2 % 65536, v.s3 % 65536])
    ∧ (v.s1 < 65536 → v.s2 < 65536 → v.s3 < 65536 →
        d.lookup FormatKeys.SHAPE = some (.narr .uint16 [v.s1, v.s2, v.s3])) := by
  obtain ⟨qt, x, xs, hc, hqt, hx, hd⟩ := save_jvol_dict_shape v m bs q d hsave
  have base : d.lookup FormatKeys.SHAPE
      = some (.narr .uint16 [v.s1 % 65536, v.s2 % 65536, v.s3 % 65536]) := by
    rw [hd]
    rfl
  refine ⟨base, fun k1 k2 k3 => ?_⟩
  rw [base, Nat.mod_eq_of_lt k1, Nat.mod_eq_of_lt k2, Nat.mod_eq_of_lt k3]

/-- C10 witness: the single-voxel save; 1 < 65536, so the stored shape is
exact. -/
theorem C10_witness :
    ((save_jvol_dict exVol1 exMat 1 60).toOption.getD []).lookup FormatKeys.SHAPE
        = some (.narr .uint16
            [exVol1.s1 % 65536, exVol1.s2 % 65536, exVol1.s3 % 65536])
    ∧ (exVol1.s1 < 65536 ∧ exVol1.s2 < 65536 ∧ exVol1.s3 < 65536)
    ∧ ((save_jvol_dict exVol1 exMat 1 60).toOption.getD []).lookup FormatKeys.SHAPE
        = some (.narr .uint16 [exVol1.s1, exVol1.s2, exVol1.s3]) :=
  ⟨(C10_shape_uint16 exVol1 exMat 1 60
      ((save_jvol_dict exVol1 exMat 1 60).toOption.getD []) rfl).1,
   ⟨by decide, by decide, by decide⟩,
   (C10_shape_uint16 exVol1 exMat 1 60
      ((save_jvol_dict exVol1 exMat 1 60).toOption.getD []) rfl).2
     (by decide) (by decide) (by decide)⟩

end Jvol
